import Mathlib

/-!
Verification of the VRPTW pricing/search core: the exact ESPPRC label-setting
engine (`src/ESPPRC.py`), its SSR and DSSR relaxations (`src/SSR_SPPRC.py`,
`src/DSSR_ESPPRC.py`) and the generic branch-and-bound driver (`src/BB.py`).

The Python code is shallowly embedded:
* customers are identified with their position in the instance's customer list
  (the repository constructs instances with `index = position`);
* real-valued costs, loads and times become `ℚ`;
* Python `set`s of customers become `Finset ℕ`;
* mutable label objects live in an append-only arena (`List PLabel`) and are
  referenced by index, mirroring the object graph (`prev` back-references);
* CPython's `heapq` is transcribed operation by operation, so processing order
  is exactly the source's;
* Python exceptions (`AttributeError` from a missing attribute, `ValueError`
  from `min()` on an empty sequence, ...) become an explicit error monad.

Dynamic attributes that only some label classes carry (`n_visited`,
`critical_visited`) are modelled as `Option` fields: `none` means the Python
object has no such attribute, and reading it raises `AttributeError`.
-/

set_option autoImplicit false

namespace VRPTWProof

/-- Kinds of Python exceptions the embedded code can raise, plus a marker
distinguishing an exhausted fuel budget of the embedding from any real
behaviour of the program. -/
inductive PyErr where
  | attributeError
  | valueError
  | indexError
  | outOfFuel
deriving DecidableEq, Repr

/-! ### CPython `heapq`

Transcription of `heapq.heappush` / `heapq.heappop` (and their helpers
`_siftdown`, `_siftup`) from CPython, with `<` abstracted as a `Bool`-valued
comparison.  The fuel arguments are chosen large enough that the loops always
run to their natural exit (proved below). -/

section Heapq

variable {α : Type} (lt : α → α → Bool)

/-- CPython `heapq._siftdown(heap, startpos, pos)` where `newitem` is the value
initially stored at `pos`: climb towards the root while `newitem` is smaller
than the parent, then store `newitem`. -/
def siftdown : Nat → List α → Nat → Nat → α → List α
  | 0, heap, _, pos, newitem => heap.set pos newitem
  | fuel+1, heap, startpos, pos, newitem =>
    if startpos < pos then
      let parentpos := (pos - 1) / 2
      match heap[parentpos]? with
      | some parent =>
        if lt newitem parent then
          siftdown fuel (heap.set pos parent) startpos parentpos newitem
        else heap.set pos newitem
      | none => heap.set pos newitem
    else heap.set pos newitem

/-- The descending loop of CPython `heapq._siftup`: repeatedly move the smaller
child up into `pos`, following the hole down to a leaf.  Returns the heap and
the final hole position. -/
def siftupLoop : Nat → List α → Nat → (List α × Nat)
  | 0, heap, pos => (heap, pos)
  | fuel+1, heap, pos =>
    let childpos := 2*pos + 1
    match heap[childpos]? with
    | none => (heap, pos)
    | some child =>
      let rightpos := childpos + 1
      let chosen : Nat × α :=
        match heap[rightpos]? with
        | some rightv => if ¬ lt child rightv then (rightpos, rightv) else (childpos, child)
        | none => (childpos, child)
      siftupLoop fuel (heap.set pos chosen.2) chosen.1

/-- CPython `heapq._siftup(heap, pos)` where `newitem` is the value initially
stored at `pos`. -/
def siftup (heap : List α) (pos : Nat) (newitem : α) : List α :=
  let hp := siftupLoop lt heap.length heap pos
  siftdown lt hp.2 (hp.1.set hp.2 newitem) pos hp.2 newitem

/-- CPython `heapq.heappush(heap, item)`. -/
def heappush (heap : List α) (item : α) : List α :=
  siftdown lt (heap.length + 1) (heap ++ [item]) 0 heap.length item

/-- CPython `heapq.heappop(heap)`: `None` models the `IndexError` on an empty
heap (never triggered by the embedded callers, which test emptiness first). -/
def heappop (heap : List α) : Option (α × List α) :=
  match heap.getLast? with
  | none => none
  | some lastelt =>
    match heap.dropLast with
    | [] => some (lastelt, [])
    | r0 :: rest => some (r0, siftup lt ((r0 :: rest).set 0 lastelt) 0 lastelt)

end Heapq

/-! ### Data model

`Customer` carries the fields `ESPPRC` reads (`demand`, `time_window`);
customers are identified with their position in `Inst.customers`.  `Inst`
mirrors the `ESPPRC.__init__` attributes: `capacity`, `customers`, the cost and
time matrices and the dual vector. -/

/-- A customer record: demand and time window `[tw0, tw1]`. -/
structure Customer where
  demand : ℚ
  tw0 : ℚ
  tw1 : ℚ
deriving DecidableEq, Repr

/-- An ESPPRC problem instance (the attributes set by `ESPPRC.__init__`).
Customer `0` is the depot. -/
structure Inst where
  capacity : ℚ
  customers : List Customer
  costs : ℕ → ℕ → ℚ
  times : ℕ → ℕ → ℚ
  duals : ℕ → ℚ

/-- Number of customers of an instance. -/
def Inst.n (inst : Inst) : ℕ := inst.customers.length

/-- The Python class that constructed a label object.  Every label the program
ever builds is constructed through `Label.__init__` (class `Label`): the
`label_cls` attributes of `SSR_SPPRC`/`DSSR_ESPPRC` are assigned but never
called. -/
inductive LCls where
  | base
  | ssr
  | dssr
deriving DecidableEq, Repr

/-- A label object.  `cost`/`load`/`time` are the accumulated resources,
`unreachable` is the `unreachable_cs` set of customer indices, `prev` is the
arena index of the predecessor label, `isDom` is the `_is_dominated` flag.
`nVisited` and `criticalVisited` model the dynamic attributes `n_visited` and
`critical_visited`: `none` means the attribute is absent and reading it raises
`AttributeError`. -/
structure PLabel where
  customer : ℕ
  cost : ℚ
  load : ℚ
  time : ℚ
  unreachable : Finset ℕ
  prev : Option ℕ
  isDom : Bool
  cls : LCls
  nVisited : Option ℕ
  criticalVisited : Option (Finset ℕ)
deriving DecidableEq

/-- `Label.__init__(customer, cost, load, time, prev)`: the fresh label starts
with `unreachable_cs = {customer}` and no dynamic attributes. -/
def mkLabel (customer : ℕ) (cost load time : ℚ) (prev : Option ℕ) : PLabel :=
  { customer := customer, cost := cost, load := load, time := time,
    unreachable := {customer}, prev := prev, isDom := false, cls := .base,
    nVisited := none, criticalVisited := none }

/-- `Label.depot_label(depot)`: a zero-resource label at the depot whose
`unreachable_cs` has been cleared. -/
def depotLabel : PLabel :=
  { mkLabel 0 0 0 0 none with unreachable := ∅ }

/-- The set of all customer indices of the instance, i.e. the Python set built
by `update(self.customers)`. -/
def allCustomers (inst : Inst) : Finset ℕ := Finset.range inst.n

/-- The resource-arithmetic core of `ESPPRC.extended_label` on the
`(cost, load, time)` triple: `cost' = cost + costs[cur, to] - duals[cur]`,
`load' = load + demand(to)` (`None` if over capacity),
`time' = max(time + times[cur, to], earliest(to))` (`None` if past the latest
time).  An out-of-range destination yields `None` (the engine only ever asks
for customers of the instance). -/
def extendStep (inst : Inst) (fromCus : ℕ) (acc : ℚ × ℚ × ℚ) (toc : ℕ) :
    Option (ℚ × ℚ × ℚ) :=
  match inst.customers[toc]? with
  | none => none
  | some cus =>
    let cost := acc.1 + inst.costs fromCus toc - inst.duals fromCus
    let load := acc.2.1 + cus.demand
    if load > inst.capacity then none
    else
      let time := max (acc.2.2 + inst.times fromCus toc) cus.tw0
      if time > cus.tw1 then none
      else some (cost, load, time)

/-- `ESPPRC.extended_label(from_label, to_cus)`: build the extended label, with
`unreachable_cs` set to all customers for a label reaching the depot and to
`{to} ∪ from_label.unreachable_cs` otherwise.  `fromIdx` is the arena index of
`from_label`, stored as the new label's `prev` reference. -/
def extendCore (inst : Inst) (fromLbl : PLabel) (fromIdx : ℕ) (toc : ℕ) :
    Option PLabel :=
  (extendStep inst fromLbl.customer (fromLbl.cost, fromLbl.load, fromLbl.time) toc).map
    fun acc =>
      let base := mkLabel toc acc.1 acc.2.1 acc.2.2 (some fromIdx)
      if toc = 0 then
        { base with unreachable := base.unreachable ∪ allCustomers inst }
      else
        { base with unreachable := base.unreachable ∪ fromLbl.unreachable }

/-- `Label.dominates(other)`: componentwise `≤` on cost, load, time and subset
on `unreachable_cs`, with at least one of the four resources different (the set
comparison is by cardinality, as in the source's `len(...) != len(...)`). -/
def dominatesB (a b : PLabel) : Bool :=
  if a.cost ≤ b.cost ∧ a.load ≤ b.load ∧ a.time ≤ b.time ∧
      a.unreachable ⊆ b.unreachable then
    decide (a.cost ≠ b.cost ∨ a.load ≠ b.load ∨ a.time ≠ b.time ∨
      a.unreachable.card ≠ b.unreachable.card)
  else false

/-- `SSR_Label.dominates`: the base comparison and `n_visited ≤`.  The
`Option` mismatch branches are unreachable in program runs (no `SSR_Label` is
ever constructed). -/
def ssrDominatesB (a b : PLabel) : Bool :=
  dominatesB a b &&
    match a.nVisited, b.nVisited with
    | some x, some y => decide (x ≤ y)
    | _, _ => false

/-- `DSSR_Label.dominates`: the SSR comparison and `critical_visited ⊆`.
Unreachable in program runs, as for `ssrDominatesB`. -/
def dssrDominatesB (a b : PLabel) : Bool :=
  ssrDominatesB a b &&
    match a.criticalVisited, b.criticalVisited with
    | some x, some y => decide (x ⊆ y)
    | _, _ => false

/-- Python dynamic dispatch of `a.dominates(b)` on the class of `a`. -/
def dispatchDominates (a b : PLabel) : Bool :=
  match a.cls with
  | .base => dominatesB a b
  | .ssr => ssrDominatesB a b
  | .dssr => dssrDominatesB a b

/-- `SSR_SPPRC.extended_label`: extend via the base engine, then read
`from_label.n_visited` (raising `AttributeError` when absent — in particular
for the depot label, a plain `Label`) and compare against `self.n_customers`.
No class of the program ever defines an `n_customers` attribute, so reaching
the comparison always raises `AttributeError`. -/
def ssrExtend (inst : Inst) (fromLbl : PLabel) (fromIdx : ℕ) (toc : ℕ) :
    Except PyErr (Option PLabel) :=
  match extendCore inst fromLbl fromIdx toc with
  | none => .ok none
  | some _ =>
    match fromLbl.nVisited with
    | none => .error .attributeError
    | some _ => .error .attributeError

/-- `DSSR_ESPPRC.extended_label` with critical set `crit` (`self.critical_cs`):
extend via SSR (whose exceptions propagate); on `None` return `None` without
touching `critical_visited` (the `or` short-circuits); otherwise consult the
critical sets — these branches are unreachable in program runs because
`ssrExtend` never produces a label. -/
def dssrExtend (inst : Inst) (crit : Finset ℕ) (fromLbl : PLabel)
    (fromIdx : ℕ) (toc : ℕ) : Except PyErr (Option PLabel) :=
  match ssrExtend inst fromLbl fromIdx toc with
  | .error e => .error e
  | .ok none => .ok none
  | .ok (some l) =>
    match fromLbl.criticalVisited with
    | none => .error .attributeError
    | some cv =>
      if toc ∈ cv then .ok none
      else
        match l.criticalVisited with
        | none => .error .attributeError
        | some lcv =>
          let merged := lcv ∪ cv
          let final := if toc ∈ crit then insert toc merged else merged
          .ok (some { l with criticalVisited := some final })

/-- Which solver class' `extended_label` the engine dispatches to. -/
inductive Variant where
  | exact
  | ssr
  | dssr
deriving DecidableEq, Repr

/-- Dynamic dispatch of `self.extended_label(from_label, to_cus)` on the
solver class; the exact engine's extension never raises. -/
def extendVariant (v : Variant) (inst : Inst) (crit : Finset ℕ)
    (fromLbl : PLabel) (fromIdx : ℕ) (toc : ℕ) : Except PyErr (Option PLabel) :=
  match v with
  | .exact => .ok (extendCore inst fromLbl fromIdx toc)
  | .ssr => ssrExtend inst fromLbl fromIdx toc
  | .dssr => dssrExtend inst crit fromLbl fromIdx toc

/-! ### The label-setting engine (`ESPPRC.solve`)

The mutable object graph is modelled by an arena: `arena` is the list of all
label objects ever retained, `pools j` holds the arena indices of
`customers[j].labels`, and `heap` is the `to_be_extended` priority queue of
arena indices.  In-place mutation of a label becomes `List.set` at its
index. -/

/-- The engine's mutable state during one `solve` call. -/
structure EngState where
  arena : List PLabel
  pools : List (List ℕ)
  heap : List ℕ
deriving DecidableEq

/-- `Label.__lt__` lifted to arena indices: compare the labels' customers
(`Customer.__lt__` is index order, and indices are positions here). -/
def ltIdx (arena : List PLabel) (i j : ℕ) : Bool :=
  match arena[i]?, arena[j]? with
  | some a, some b => decide (a.customer < b.customer)
  | _, _ => false

/-- `Label.update_unreachable_from_prev`: union the predecessor's current
`unreachable_cs` into the label at arena index `i`. -/
def updateFromPrev (arena : List PLabel) (i : ℕ) : List PLabel :=
  match arena[i]? with
  | none => arena
  | some l =>
    match l.prev with
    | none => arena
    | some p =>
      match arena[p]? with
      | none => arena
      | some pl =>
        arena.set i { l with unreachable := l.unreachable ∪ pl.unreachable }

/-- `Label.is_dominated`: does any label of the pool dominate `newl`?  The
`dominates` call dispatches on the pooled label's class. -/
def isDominatedB (arena : List PLabel) (pool : List ℕ) (newl : PLabel) : Bool :=
  pool.any fun j =>
    match arena[j]? with
    | some l => dispatchDominates l newl
    | none => false

/-- One step of `Label.filter_dominated` over the pool: keep the pooled index
or drop it and set its label's `_is_dominated` flag. -/
def filterStep (newl : PLabel) (acc : List ℕ × List PLabel) (j : ℕ) :
    List ℕ × List PLabel :=
  match acc.2[j]? with
  | none => (acc.1 ++ [j], acc.2)
  | some l =>
    if dispatchDominates newl l then (acc.1, acc.2.set j { l with isDom := true })
    else (acc.1 ++ [j], acc.2)

/-- `Label.filter_dominated`: drop from the pool every label the new label
dominates, setting the dropped labels' `_is_dominated` flag in the arena.
Returns the filtered pool and the updated arena. -/
def filterDominated (arena : List PLabel) (pool : List ℕ) (newl : PLabel) :
    List ℕ × List PLabel :=
  pool.foldl (filterStep newl) ([], arena)

/-- The `for to_cus in self.customers` body of `ESPPRC.solve`, extending the
popped label at arena index `i` to each customer in turn.  Resource failures
grow the popped label's `unreachable_cs` in place; surviving extensions are
pooled and pushed. -/
def extLoop (v : Variant) (inst : Inst) (crit : Finset ℕ) (i : ℕ) :
    List ℕ → EngState → Except PyErr EngState
  | [], st => .ok st
  | toc :: rest, st =>
    match st.arena[i]? with
    | none => extLoop v inst crit i rest st
    | some fl =>
      if toc ∈ fl.unreachable ∨ (fl.customer = 0 ∧ toc = 0) then
        extLoop v inst crit i rest st
      else
        match extendVariant v inst crit fl i toc with
        | .error e => .error e
        | .ok none =>
          let arena' := st.arena.set i { fl with unreachable := insert toc fl.unreachable }
          extLoop v inst crit i rest { st with arena := arena' }
        | .ok (some newl) =>
          let pool := st.pools.getD toc []
          if isDominatedB st.arena pool newl then extLoop v inst crit i rest st
          else
            let fr := filterDominated st.arena pool newl
            let newIdx := fr.2.length
            let arena' := fr.2 ++ [newl]
            let pools' := st.pools.set toc (fr.1 ++ [newIdx])
            let heap' := heappush (ltIdx arena') st.heap newIdx
            extLoop v inst crit i rest { arena := arena', pools := pools', heap := heap' }

/-- One iteration of the engine's `while to_be_extended` loop: pop, skip dead
labels, merge the predecessor's `unreachable_cs`, then run the extension loop.
`ok none` signals an empty queue (the loop's natural exit). -/
def popStep (v : Variant) (inst : Inst) (crit : Finset ℕ) (st : EngState) :
    Except PyErr (Option EngState) :=
  match heappop (ltIdx st.arena) st.heap with
  | none => .ok none
  | some (i, heap') =>
    match st.arena[i]? with
    | none => .ok (some { st with heap := heap' })
    | some fl =>
      if fl.isDom then .ok (some { st with heap := heap' })
      else
        let st1 : EngState := { st with arena := updateFromPrev st.arena i, heap := heap' }
        (extLoop v inst crit i (List.range inst.n) st1).map some

/-- Iterate `popStep` until the queue empties (`ok (some finalState)`) or the
fuel budget is exhausted (`ok none`, an artefact of the embedding). -/
def runLoop (v : Variant) (inst : Inst) (crit : Finset ℕ) :
    ℕ → EngState → Except PyErr (Option EngState)
  | 0, _ => .ok none
  | fuel+1, st =>
    match popStep v inst crit st with
    | .error e => .error e
    | .ok none => .ok (some st)
    | .ok (some st') => runLoop v inst crit fuel st'

/-- The engine's initial state: all pools cleared, the depot label pushed. -/
def initState (inst : Inst) : EngState :=
  { arena := [depotLabel], pools := List.replicate inst.n [], heap := [0] }

/-- One step of Python `min(labels, key=lambda x: x.cost)` over the pool. -/
def pyMinStep (arena : List PLabel) (acc : Option (ℕ × PLabel)) (j : ℕ) :
    Option (ℕ × PLabel) :=
  match arena[j]? with
  | none => acc
  | some l =>
    match acc with
    | none => some (j, l)
    | some jb => if l.cost < jb.2.cost then some (j, l) else acc

/-- Python `min(labels, key=lambda x: x.cost)` over a pool of arena indices:
first label of minimal cost, `none` on an empty pool (a `ValueError`). -/
def pyMinCost (arena : List PLabel) (pool : List ℕ) : Option (ℕ × PLabel) :=
  pool.foldl (pyMinStep arena) none

/-- Fuel-based implementation of `Label.path`: walk the `prev` chain and
reverse.  The `p < i` guard is a totality device; it holds for every label the
engine builds (`prev` always points to an earlier arena entry), so a fuel of
`i + 1` always suffices. -/
def pathOfFuel : ℕ → List PLabel → ℕ → List ℕ
  | 0, _, _ => []
  | fuel+1, arena, i =>
    match arena[i]? with
    | none => []
    | some l =>
      match l.prev with
      | none => [l.customer]
      | some p => if p < i then pathOfFuel fuel arena p ++ [l.customer] else [l.customer]

/-- `Label.path` of the label at arena index `i`. -/
def pathOf (arena : List PLabel) (i : ℕ) : List ℕ :=
  pathOfFuel (i + 1) arena i

/-- `ESPPRC.solve` (shared by `SSR_SPPRC`, and by `DSSR_ESPPRC` via `super()`):
clear the pools, run the labeling loop, then take the cheapest depot label.
`ValueError` models `min()` on an empty `depot.labels`; `IndexError` models
`self.customers[0]` on an empty customer list. -/
def engineSolve (v : Variant) (inst : Inst) (crit : Finset ℕ) (fuel : ℕ) :
    Except PyErr (List ℕ × ℚ) :=
  if inst.n = 0 then .error .indexError
  else
    match runLoop v inst crit fuel (initState inst) with
    | .error e => .error e
    | .ok none => .error .outOfFuel
    | .ok (some st) =>
      match pyMinCost st.arena (st.pools.getD 0 []) with
      | none => .error .valueError
      | some jl => .ok (pathOf st.arena jl.1, jl.2.cost)

/-- `ESPPRC.solve` on an `ESPPRC` object. -/
def espprcSolve (inst : Inst) (fuel : ℕ) : Except PyErr (List ℕ × ℚ) :=
  engineSolve .exact inst ∅ fuel

/-- `ESPPRC.solve` on an `SSR_SPPRC` object (the subclass overrides only
`extended_label`). -/
def ssrSolve (inst : Inst) (fuel : ℕ) : Except PyErr (List ℕ × ℚ) :=
  engineSolve .ssr inst ∅ fuel

/-- `DSSR_ESPPRC.solve`: run the inherited solve (with `critical_cs = ∅` as
set by `__init__`), then iterate over the returned value.  The inherited solve
returns the pair `(min_label.path, min_label.cost)`, so the `for label in
labels` generator first yields the path — a plain list — and `label.path[:-1]`
raises `AttributeError`. -/
def dssrSolve (inst : Inst) (fuel : ℕ) : Except PyErr Unit :=
  match engineSolve .dssr inst ∅ fuel with
  | .error e => .error e
  | .ok _ => .error .attributeError

/-! ### Routes: the specification side

A depot-to-depot route is evaluated by replaying the extension arithmetic of
`extendStep` along it; `evalRoute` returns the accumulated
`(cost, load, time)` when every arc respects capacity and time windows. -/

/-- Replay the extension arithmetic from customer `cur` with accumulated
resources `acc` along the remaining route. -/
def evalFrom (inst : Inst) : ℕ → ℚ × ℚ × ℚ → List ℕ → Option (ℚ × ℚ × ℚ)
  | _, acc, [] => some acc
  | cur, acc, c :: rest =>
    match extendStep inst cur acc c with
    | none => none
    | some acc' => evalFrom inst c acc' rest

/-- Resource-feasible evaluation of a route that starts at the depot. -/
def evalRoute (inst : Inst) : List ℕ → Option (ℚ × ℚ × ℚ)
  | [] => none
  | c :: rest => if c = 0 then evalFrom inst 0 (0, 0, 0) rest else none

/-- A route is elementary when it starts and ends at the depot and visits no
customer twice apart from the depot at the two endpoints. -/
def elementaryB (p : List ℕ) : Bool :=
  match p with
  | 0 :: rest =>
    match rest.getLast? with
    | some l =>
      l = 0 && decide rest.dropLast.Nodup && rest.dropLast.all (fun x => x ≠ 0)
    | none => false
  | _ => false

/-- All duplicate-free sequences of non-depot customers (the interiors of
candidate elementary routes), visiting at least one customer. -/
def allMids (inst : Inst) : List (List ℕ) :=
  (((List.range inst.n).filter (fun x => x ≠ 0)).sublists.flatMap
    List.permutations').filter (· ≠ [])

/-- The reduced cost of a route, when feasible. -/
def routeCost (inst : Inst) (r : List ℕ) : Option ℚ :=
  (evalRoute inst r).map (·.1)

/-! ### Branch and bound (`BB.py`)

`BBNode` objects are abstracted as finite binary trees: a node records the
result of its (single) `solve` call — objective, `is_integer()`,
`is_infeasible()` — and `split()` returns the two subtrees of a `branch`.
Calling `split()` on a `leaf` has no implementation in the program and is
modelled as an `AttributeError`. -/

/-- An abstract solved branch-and-bound node with its reachable search tree. -/
inductive BBTree where
  | leaf (obj : ℚ) (integer : Bool) (infeasible : Bool)
  | branch (obj : ℚ) (integer : Bool) (infeasible : Bool) (l r : BBTree)
deriving DecidableEq, Repr

/-- The node's relaxation objective `obj`. -/
def BBTree.obj : BBTree → ℚ
  | .leaf o _ _ => o
  | .branch o _ _ _ _ => o

/-- The node's `is_integer()` result. -/
def BBTree.integer : BBTree → Bool
  | .leaf _ i _ => i
  | .branch _ i _ _ _ => i

/-- The node's `is_infeasible()` result. -/
def BBTree.infeasible : BBTree → Bool
  | .leaf _ _ f => f
  | .branch _ _ f _ _ => f

/-- `BBNode.__lt__`: comparison by objective value. -/
def bbLt (a b : BBTree) : Bool := decide (a.obj < b.obj)

/-- `solve_and_push`: push the (already solved) node unless infeasible. -/
def bbPush (q : List BBTree) (t : BBTree) : List BBTree :=
  if t.infeasible then q else heappush bbLt q t

/-- What happened to a popped node; recorded for trace-level statements. -/
inductive BBAct where
  | newIncumbent
  | keptIncumbent
  | pruned
  | split
deriving DecidableEq, Repr

/-- Trace record of one iteration of the `while priority_queue` loop: the
popped node's objective and `is_integer()` result, the incumbent objective
`min_obj` at pop time (`none` for `math.inf`), and the action taken. -/
structure BBEvent where
  obj : ℚ
  integer : Bool
  minAtPop : Option ℚ
  act : BBAct
deriving DecidableEq, Repr

/-- `bbnode.obj < min_obj` (with `min_obj = math.inf` when no incumbent). -/
def bbLtMin (o : ℚ) (inc : Option BBTree) : Bool :=
  match inc with
  | none => true
  | some i => decide (o < i.obj)

/-- `bbnode.obj > min_obj` (with `min_obj = math.inf` when no incumbent). -/
def bbGtMin (o : ℚ) (inc : Option BBTree) : Bool :=
  match inc with
  | none => false
  | some i => decide (o > i.obj)

/-- Total size of a tree, the termination measure of the search. -/
def BBTree.size : BBTree → ℕ
  | .leaf _ _ _ => 1
  | .branch _ _ _ l r => 1 + l.size + r.size

/-- Queue weight: total size of the queued trees.  One loop iteration strictly
decreases it, so `root.size + 1` fuel always reaches the natural exit. -/
def bbWeight (q : List BBTree) : ℕ := (q.map BBTree.size).sum

/-- The `while priority_queue` loop of `BB`, also recording one trace event
per popped node.  A fuel of `0` yields the embedding's `outOfFuel` marker
(never reached from `bbRun`, as proved below); splitting a `leaf` raises. -/
def bbLoop : ℕ → List BBTree → Option BBTree →
    List BBEvent × Except PyErr (Option BBTree)
  | 0, _, _ => ([], .error .outOfFuel)
  | fuel+1, q, inc =>
    match heappop bbLt q with
    | none => ([], .ok inc)
    | some (t, q') =>
      if t.integer then
        let improved := bbLtMin t.obj inc
        let res := bbLoop fuel q' (if improved then some t else inc)
        (⟨t.obj, t.integer, inc.map BBTree.obj,
          if improved then .newIncumbent else .keptIncumbent⟩ :: res.1, res.2)
      else if bbGtMin t.obj inc then
        let res := bbLoop fuel q' inc
        (⟨t.obj, t.integer, inc.map BBTree.obj, .pruned⟩ :: res.1, res.2)
      else
        match t with
        | .leaf o i f =>
          ([⟨o, i, inc.map BBTree.obj, .split⟩], .error .attributeError)
        | .branch o i f l r =>
          let res := bbLoop fuel (bbPush (bbPush q' l) r) inc
          (⟨o, i, inc.map BBTree.obj, .split⟩ :: res.1, res.2)

/-- `BB(root_bbnode)`: solve-and-push the root, run the loop, return the
incumbent (with the recorded trace). -/
def bbRun (root : BBTree) : List BBEvent × Except PyErr (Option BBTree) :=
  bbLoop (root.size + 1) (bbPush [] root) none

/-- The integer-feasible nodes reachable from a node (the node itself
included). -/
def intFeasList : BBTree → List BBTree
  | .leaf o i f => if i && !f then [.leaf o i f] else []
  | .branch o i f l r =>
    (if i && !f then [.branch o i f l r] else []) ++ intFeasList l ++ intFeasList r

/-- The abstract node contract of the claim: a node's objective is a lower
bound on its children's (valid relaxation), an infeasible relaxation admits no
integer-feasible point below it, and every feasible non-integer node can be
split in two. -/
def contractB : BBTree → Bool
  | .leaf _ i f => i || f
  | .branch o _ f l r =>
    decide (o ≤ l.obj) && decide (o ≤ r.obj) && contractB l && contractB r &&
      (!f || ((intFeasList l).isEmpty && (intFeasList r).isEmpty))

/-- `obj > min_obj` on the recorded incumbent objective of a trace event. -/
def optGt (m : Option ℚ) (o : ℚ) : Bool :=
  match m with
  | none => false
  | some μ => decide (o > μ)

/-! ### Concrete instances used in counterexamples and witnesses -/

/-- A 2-customer instance (depot plus one customer) on which every solver has
work to do: unit costs and times, wide windows. -/
def wellInst : Inst :=
  { capacity := 10,
    customers := [⟨0, 0, 100⟩, ⟨1, 0, 100⟩],
    costs := fun _ _ => 1,
    times := fun _ _ => 1,
    duals := fun _ => 0 }

/-- A 2-customer instance whose single customer exceeds the vehicle capacity:
no feasible depot-to-depot path exists. -/
def infeasInst : Inst :=
  { capacity := 10,
    customers := [⟨0, 0, 100⟩, ⟨20, 0, 100⟩],
    costs := fun _ _ => 1,
    times := fun _ _ => 1,
    duals := fun _ => 0 }

/-- Time matrix of `optInst`: symmetric, unit times except the blocked arc
`1 ↔ 2` taking `100`. -/
def optTimes : ℕ → ℕ → ℚ := fun i j =>
  if i = j then 0
  else if (i = 1 ∧ j = 2) ∨ (i = 2 ∧ j = 1) then 100
  else 1

/-- Instance on which the exact engine misses the optimum: large duals reward
visiting all of `1, 2, 3`, but both all-customer orderings (`0 1 3 2 0` and
`0 2 3 1 0`) traverse `3` after a failed direct arc `1 → 2` (resp. `2 → 1`),
and the failure — memoised in `unreachable_cs` and inherited by the label at
`3` — wrongly blocks the remaining customer even though the time matrix is not
metric. -/
def optInst : Inst :=
  { capacity := 100,
    customers := [⟨0, 0, 1000⟩, ⟨0, 0, 50⟩, ⟨0, 0, 50⟩, ⟨0, 0, 1000⟩],
    costs := fun _ _ => 0,
    times := optTimes,
    duals := fun i => if i = 0 then 0 else 1000 }

/-- Time matrix of `antichainInst`: asymmetric; `2 → 1` and `3 → 2` are slow
(blocked by the narrow windows), everything else takes one unit. -/
def acTimes : ℕ → ℕ → ℚ := fun i j =>
  if i = j then 0
  else if (i = 2 ∧ j = 1) ∨ (i = 3 ∧ j = 2) then 100
  else 1

/-- Instance on which a retained label at customer `3` ends up dominated by
another retained label at `3`: the label via `0 1 3` only learns that `2` is
unreachable when it is popped (arc `3 → 2` fails), after the cheaper label via
`0 2 3` — whose `unreachable_cs` already contains `2` — has been retained
alongside it. -/
def antichainInst : Inst :=
  { capacity := 100,
    customers := [⟨0, 0, 1000⟩, ⟨0, 0, 50⟩, ⟨0, 0, 50⟩, ⟨0, 0, 1000⟩],
    costs := fun _ _ => 0,
    times := acTimes,
    duals := fun i => if i = 0 then 0 else if i = 1 then 10 else if i = 2 then 20 else 0 }

/-- Does some customer's pool retain two distinct labels one of which
dominates the other (under the dispatch the engine itself uses)? -/
def poolDominationB (st : EngState) : Bool :=
  st.pools.any fun pool =>
    pool.any fun i =>
      pool.any fun j =>
        i ≠ j &&
          match st.arena[i]?, st.arena[j]? with
          | some a, some b => dispatchDominates a b
          | _, _ => false

/-- Final engine state of a run (queue drained), if reached within fuel. -/
def finalState (v : Variant) (inst : Inst) (fuel : ℕ) : Option EngState :=
  match runLoop v inst ∅ fuel (initState inst) with
  | .ok (some st) => some st
  | _ => none

/-- Branch-and-bound tree for the pruning counterexample: after the integer
child (objective 5) becomes the incumbent, the non-integer sibling with the
same objective 5 is popped and split — not pruned. -/
def cexBBTree : BBTree :=
  .branch 5 false false (.leaf 5 true false)
    (.branch 5 false false (.leaf 3 true false) (.leaf 7 true false))

/-- Branch-and-bound tree for the pruning witness: the non-integer child with
objective 6 pops while the incumbent objective is 5 and is pruned. -/
def witBBTree : BBTree :=
  .branch 5 false false (.leaf 5 true false) (.leaf 6 false false)

/-- Branch-and-bound tree for the optimality witness. -/
def witBBTree2 : BBTree :=
  .branch 3 false false (.leaf 4 true false) (.branch 3 false false
    (.leaf 5 true false) (.leaf 3 true false))

/-- Minimum of a list of rationals (`none` on the empty list). -/
def listMin : List ℚ → Option ℚ
  | [] => none
  | c :: rest =>
    match listMin rest with
    | none => some c
    | some m => some (min c m)

/-- The minimum reduced cost over all capacity- and time-window-feasible
elementary depot-to-depot routes of the instance. -/
def minFeasCost (inst : Inst) : Option ℚ :=
  listMin ((allMids inst).filterMap fun m => routeCost inst (0 :: (m ++ [0])))

/-- The label produced by extending the depot label of `wellInst` to its
customer `1`. -/
def c10Label : PLabel := { mkLabel 1 1 1 1 (some 0) with unreachable := {1} }

/-! ### Invariants of the exact engine

`GoodLabelAt` is the per-label invariant justifying the amended C1: a label's
`prev` chain goes strictly down the (append-only) arena, its path starts at
the depot, is duplicate-free with the depot only at the ends, replays to
exactly the label's `(cost, load, time)` under the extension arithmetic, and
is covered by the label's `unreachable_cs`; labels parked back at the depot
block all further extension. -/

/-- The per-label invariant of the exact engine. -/
structure GoodLabelAt (inst : Inst) (arena : List PLabel) (i : ℕ) (l : PLabel) :
    Prop where
  prev_lt : ∀ p, l.prev = some p → p < i
  shape : ∃ tail, pathOf arena i = 0 :: tail ∧ tail.Nodup ∧
    (∀ x ∈ tail.dropLast, x ≠ 0) ∧ (∀ x ∈ tail, x ∈ l.unreachable) ∧
    evalFrom inst 0 (0, 0, 0) tail = some (l.cost, l.load, l.time) ∧
    (l.customer = 0 → l.prev ≠ none → 2 ≤ tail.length)
  blocked : l.customer = 0 → l.prev ≠ none → ∀ c, c < inst.n → c ∈ l.unreachable

/-- Every arena entry satisfies the per-label invariant. -/
def ArenaInv (inst : Inst) (arena : List PLabel) : Prop :=
  ∀ i l, arena[i]? = some l → GoodLabelAt inst arena i l

/-- Pools index valid arena entries of the right customer, none of them the
initial depot label. -/
def PoolsInv (arena : List PLabel) (pools : List (List ℕ)) : Prop :=
  ∀ c pool, pools[c]? = some pool → ∀ j ∈ pool,
    ∃ l : PLabel, arena[j]? = some l ∧ l.customer = c ∧ l.prev ≠ none

/-- The engine-state invariant of the exact solver. -/
def StInv (inst : Inst) (st : EngState) : Prop :=
  ArenaInv inst st.arena ∧ PoolsInv st.arena st.pools

/-- Two arenas with the same length and the same customer/prev data
everywhere (paths do not depend on the other fields). -/
def SameShape (a b : List PLabel) : Prop :=
  a.length = b.length ∧
  ∀ j : ℕ, (a[j]?).map (fun (l : PLabel) => (l.customer, l.prev)) =
    (b[j]?).map (fun (l : PLabel) => (l.customer, l.prev))

/-- The second arena differs from the first only by `_is_dominated` flags. -/
def FlagOnly (a b : List PLabel) : Prop :=
  a.length = b.length ∧
  ∀ j : ℕ, b[j]? = a[j]? ∨ ∃ l : PLabel, a[j]? = some l ∧ b[j]? = some { l with isDom := true }

/-- Decidable equality on the embedded result type, in a form whose reduction
the `decide` tactic can carry out. -/
instance {e a : Type} [DecidableEq e] [DecidableEq a] : DecidableEq (Except e a) := fun x y =>
  match x, y with
  | .error u, .error v =>
    match decEq u v with
    | isTrue h => isTrue (congrArg Except.error h)
    | isFalse h => isFalse fun c => h (by cases c; rfl)
  | .error _, .ok _ => isFalse fun c => Except.noConfusion c
  | .ok _, .error _ => isFalse fun c => Except.noConfusion c
  | .ok u, .ok v =>
    match decEq u v with
    | isTrue h => isTrue (congrArg Except.ok h)
    | isFalse h => isFalse fun c => h (by cases c; rfl)

attribute [local semireducible] Rat.add Rat.sub Rat.mul Rat.inv

set_option maxRecDepth 4000000

/-! ## Theorems

First, content lemmas for the `heapq` model: pushing and popping permute the
heap's contents. -/

section HeapqLemmas

variable {α : Type} (lt : α → α → Bool)

/-- Setting an occupied position exchanges the old element for the new one, at
the level of multisets. -/
theorem multiset_set_cons (l : List α) (i : ℕ) (a b : α) (h : l[i]? = some b) :
    b ::ₘ ((l.set i a : List α) : Multiset α) = a ::ₘ (l : Multiset α) := by
  induction l generalizing i with
  | nil => simp at h
  | cons x xs ih =>
    cases i with
    | zero =>
      simp only [List.getElem?_cons_zero, Option.some_inj] at h
      subst h
      simp only [List.set_cons_zero, ← Multiset.cons_coe]
      exact Multiset.cons_swap x a (↑xs)
    | succ j =>
      simp only [List.getElem?_cons_succ] at h
      have hih := ih j h
      simp only [List.set_cons_succ, ← Multiset.cons_coe]
      calc b ::ₘ x ::ₘ (↑(xs.set j a) : Multiset α)
          = x ::ₘ b ::ₘ (↑(xs.set j a) : Multiset α) := Multiset.cons_swap _ _ _
        _ = x ::ₘ a ::ₘ (↑xs : Multiset α) := by rw [hih]
        _ = a ::ₘ x ::ₘ (↑xs : Multiset α) := Multiset.cons_swap _ _ _

/-- Writing `y`'s copy over position `i` and the new item over `y`'s own
position `j` has the same contents as writing the new item at `i` directly. -/
theorem multiset_set_set (l : List α) (i j : ℕ) (x y b : α) (hne : j ≠ i)
    (hj : l[j]? = some y) (hb : l[i]? = some b) :
    (((l.set i y).set j x : List α) : Multiset α) = ((l.set i x : List α) : Multiset α) := by
  have hj' : (l.set i y)[j]? = some y := by
    rw [List.getElem?_set_ne (fun he => hne he.symm)]
    exact hj
  have h1 := multiset_set_cons (l.set i y) j x y hj'
  have h2 := multiset_set_cons l i y b hb
  have h3 := multiset_set_cons l i x b hb
  have key : b ::ₘ y ::ₘ (((l.set i y).set j x : List α) : Multiset α)
      = b ::ₘ y ::ₘ ((l.set i x : List α) : Multiset α) := by
    calc b ::ₘ y ::ₘ (((l.set i y).set j x : List α) : Multiset α)
        = b ::ₘ x ::ₘ ((l.set i y : List α) : Multiset α) := by rw [h1]
      _ = x ::ₘ b ::ₘ ((l.set i y : List α) : Multiset α) := Multiset.cons_swap _ _ _
      _ = x ::ₘ y ::ₘ (l : Multiset α) := by rw [h2]
      _ = y ::ₘ x ::ₘ (l : Multiset α) := Multiset.cons_swap _ _ _
      _ = y ::ₘ b ::ₘ ((l.set i x : List α) : Multiset α) := by rw [h3]
      _ = b ::ₘ y ::ₘ ((l.set i x : List α) : Multiset α) := Multiset.cons_swap _ _ _
  exact (Multiset.cons_inj_right _).mp ((Multiset.cons_inj_right _).mp key)

/-- `_siftdown` permutes the heap: its contents are those of writing the new
item at the starting hole. -/
theorem siftdown_multiset (fuel : ℕ) :
    ∀ (heap : List α) (s pos : ℕ) (x : α), pos < heap.length →
      ((siftdown lt fuel heap s pos x : List α) : Multiset α)
        = ((heap.set pos x : List α) : Multiset α) := by
  induction fuel with
  | zero => intro heap s pos x _; rfl
  | succ f ih =>
    intro heap s pos x hpos
    rw [siftdown]
    by_cases hsp : s < pos
    · rw [if_pos hsp]
      dsimp only
      cases hpp : heap[(pos - 1) / 2]? with
      | none => rfl
      | some parent =>
        dsimp only
        by_cases hltp : lt x parent = true
        · rw [if_pos hltp]
          have hppos : (pos - 1) / 2 < pos := by
            have h1 : (pos - 1) / 2 ≤ pos - 1 := Nat.div_le_self _ _
            omega
          have hlen : (pos - 1) / 2 < (heap.set pos parent).length := by
            rw [List.length_set]
            exact Nat.lt_trans hppos hpos
          rw [ih (heap.set pos parent) s ((pos - 1) / 2) x hlen]
          obtain ⟨hb, -⟩ := List.getElem?_eq_some.mp
            (List.getElem?_eq_getElem hpos)
          exact multiset_set_set heap pos ((pos - 1) / 2) x parent heap[pos]
            (Nat.ne_of_lt hppos) hpp (List.getElem?_eq_getElem hpos)
        · rw [if_neg hltp]
    · rw [if_neg hsp]

/-- The hole-moving loop of `_siftup` keeps the heap's length, ends on a valid
hole, and writing any item into the final hole has the same contents as
writing it into the initial one. -/
theorem siftupLoop_spec (fuel : ℕ) :
    ∀ (heap : List α) (pos : ℕ), pos < heap.length →
      (siftupLoop lt fuel heap pos).1.length = heap.length ∧
      (siftupLoop lt fuel heap pos).2 < heap.length ∧
      ∀ x, (((siftupLoop lt fuel heap pos).1.set (siftupLoop lt fuel heap pos).2 x : List α) : Multiset α)
        = ((heap.set pos x : List α) : Multiset α) := by
  induction fuel with
  | zero => intro heap pos h; exact ⟨rfl, h, fun _ => rfl⟩
  | succ f ih =>
    intro heap pos hpos
    rw [siftupLoop]
    dsimp only
    cases hc : heap[2 * pos + 1]? with
    | none => exact ⟨rfl, hpos, fun _ => rfl⟩
    | some child =>
      dsimp only
      have hcpos : 2 * pos + 1 < heap.length := by
        rcases List.getElem?_eq_some.mp hc with ⟨hh, -⟩
        exact hh
      cases hr : heap[2 * pos + 1 + 1]? with
      | none =>
        dsimp only
        have hlen : (heap.set pos child).length = heap.length := List.length_set ..
        have hcl : 2 * pos + 1 < (heap.set pos child).length := by rw [hlen]; exact hcpos
        obtain ⟨h1, h2, h3⟩ := ih (heap.set pos child) (2 * pos + 1) hcl
        refine ⟨by rw [h1, hlen], by rw [← hlen]; exact Nat.lt_of_lt_of_eq h2 (by rw [hlen]), ?_⟩
        intro x
        rw [h3 x]
        exact multiset_set_set heap pos (2 * pos + 1) x child heap[pos]
          (by omega) hc (List.getElem?_eq_getElem hpos)
      | some rightv =>
        dsimp only
        by_cases hcmp : ¬ lt child rightv = true
        · rw [if_pos hcmp]
          dsimp only
          have hrpos : 2 * pos + 1 + 1 < heap.length := by
            rcases List.getElem?_eq_some.mp hr with ⟨hh, -⟩
            exact hh
          have hlen : (heap.set pos rightv).length = heap.length := List.length_set ..
          have hcl : 2 * pos + 1 + 1 < (heap.set pos rightv).length := by
            rw [hlen]; exact hrpos
          obtain ⟨h1, h2, h3⟩ := ih (heap.set pos rightv) (2 * pos + 1 + 1) hcl
          refine ⟨by rw [h1, hlen], by rw [← hlen]; exact Nat.lt_of_lt_of_eq h2 (by rw [hlen]), ?_⟩
          intro x
          rw [h3 x]
          exact multiset_set_set heap pos (2 * pos + 1 + 1) x rightv heap[pos]
            (by omega) hr (List.getElem?_eq_getElem hpos)
        · rw [if_neg hcmp]
          dsimp only
          have hlen : (heap.set pos child).length = heap.length := List.length_set ..
          have hcl : 2 * pos + 1 < (heap.set pos child).length := by rw [hlen]; exact hcpos
          obtain ⟨h1, h2, h3⟩ := ih (heap.set pos child) (2 * pos + 1) hcl
          refine ⟨by rw [h1, hlen], by rw [← hlen]; exact Nat.lt_of_lt_of_eq h2 (by rw [hlen]), ?_⟩
          intro x
          rw [h3 x]
          exact multiset_set_set heap pos (2 * pos + 1) x child heap[pos]
            (by omega) hc (List.getElem?_eq_getElem hpos)

/-- `_siftup` permutes the heap: its contents are those of writing the new
item at the initial hole. -/
theorem siftup_multiset (heap : List α) (pos : ℕ) (x : α) (h : pos < heap.length) :
    ((siftup lt heap pos x : List α) : Multiset α) = ((heap.set pos x : List α) : Multiset α) := by
  unfold siftup
  obtain ⟨h1, h2, h3⟩ := siftupLoop_spec lt heap.length heap pos h
  have hlt : (siftupLoop lt heap.length heap pos).2
      < ((siftupLoop lt heap.length heap pos).1.set
          (siftupLoop lt heap.length heap pos).2 x).length := by
    rw [List.length_set, h1]
    exact h2
  rw [siftdown_multiset lt _ _ _ _ _ hlt, List.set_set]
  exact h3 x

/-- `heapq.heappush` adds exactly the pushed element. -/
theorem heappush_multiset (heap : List α) (x : α) :
    ((heappush lt heap x : List α) : Multiset α) = x ::ₘ (heap : Multiset α) := by
  unfold heappush
  have hlen : heap.length < (heap ++ [x]).length := by
    rw [List.length_append]
    simp
  rw [siftdown_multiset lt _ _ _ _ _ hlen]
  have hx : (heap ++ [x])[heap.length]? = some x := by
    rw [List.getElem?_append_right (Nat.le_refl _)]
    simp
  have := multiset_set_cons (heap ++ [x]) heap.length x x hx
  have hcancel := (Multiset.cons_inj_right x).mp this
  rw [hcancel, Multiset.cons_coe]
  exact Multiset.coe_eq_coe.mpr (List.perm_append_singleton x heap)

/-- A list with a known last element decomposes as `dropLast ++ [last]`. -/
theorem getLast?_decomp : ∀ (l : List α) (a : α), l.getLast? = some a →
    l = l.dropLast ++ [a]
  | [], a, h => by simp at h
  | [x], a, h => by
    simp only [List.getLast?_singleton, Option.some_inj] at h
    subst h
    rfl
  | x :: y :: t, a, h => by
    rw [List.getLast?_cons_cons] at h
    have := getLast?_decomp (y :: t) a h
    calc x :: y :: t = x :: ((y :: t).dropLast ++ [a]) := by rw [← this]
      _ = (x :: y :: t).dropLast ++ [a] := by
          rw [List.dropLast_cons₂]
          rfl

/-- `heapq.heappop` removes exactly the returned element. -/
theorem heappop_multiset (heap : List α) (t : α) (q' : List α)
    (h : heappop lt heap = some (t, q')) :
    (heap : Multiset α) = t ::ₘ (q' : Multiset α) := by
  unfold heappop at h
  cases hl : heap.getLast? with
  | none => rw [hl] at h; exact Option.noConfusion h
  | some lastelt =>
    rw [hl] at h
    have hdec := getLast?_decomp heap lastelt hl
    cases hdl : heap.dropLast with
    | nil =>
      rw [hdl] at h
      simp only [Option.some_inj, Prod.mk.injEq] at h
      obtain ⟨ht, hq⟩ := h
      subst ht
      subst hq
      rw [hdec, hdl]
      rfl
    | cons r0 rest =>
      rw [hdl] at h
      simp only [Option.some_inj, Prod.mk.injEq] at h
      obtain ⟨ht, hq⟩ := h
      subst ht
      subst hq
      have hset : ((r0 :: rest).set 0 lastelt) = lastelt :: rest := rfl
      have hlen : (0 : ℕ) < ((r0 :: rest).set 0 lastelt).length := by
        rw [hset]
        simp
      rw [siftup_multiset lt _ _ _ hlen, List.set_set, hset, hdec, hdl]
      calc ((r0 :: rest) ++ [lastelt] : Multiset α)
          = ((r0 :: (rest ++ [lastelt]) : List α) : Multiset α) := rfl
        _ = r0 ::ₘ ((rest ++ [lastelt] : List α) : Multiset α) := by
            rw [← Multiset.cons_coe]
        _ = r0 ::ₘ ((lastelt :: rest : List α) : Multiset α) := by
            rw [Multiset.coe_eq_coe.mpr (List.perm_append_singleton lastelt rest)]

/-- `heapq.heappop` returns `None` exactly on the empty heap. -/
theorem heappop_none_iff (heap : List α) : heappop lt heap = none ↔ heap = [] := by
  cases heap with
  | nil => simp [heappop]
  | cons x xs =>
    constructor
    · intro h
      unfold heappop at h
      cases hl : (x :: xs).getLast? with
      | none =>
        have : (x :: xs) = [] := by
          have hne : x :: xs ≠ [] := List.cons_ne_nil x xs
          exact absurd (List.getLast?_eq_none_iff.mp hl) hne
        exact this
      | some lastelt =>
        rw [hl] at h
        cases hdl : (x :: xs).dropLast with
        | nil => rw [hdl] at h; exact Option.noConfusion h
        | cons r0 rest => rw [hdl] at h; exact Option.noConfusion h
    · intro h
      exact absurd h (List.cons_ne_nil x xs)

/-- Pushed heaps contain the pushed element and the previous elements. -/
theorem heappush_mem (heap : List α) (x a : α) :
    a ∈ heappush lt heap x ↔ a = x ∨ a ∈ heap := by
  rw [← Multiset.mem_coe, heappush_multiset lt heap x, Multiset.mem_cons,
    Multiset.mem_coe]

/-- The popped element was in the heap. -/
theorem heappop_mem_fst (heap : List α) (t : α) (q' : List α)
    (h : heappop lt heap = some (t, q')) : t ∈ heap := by
  rw [← Multiset.mem_coe, heappop_multiset lt heap t q' h]
  exact Multiset.mem_cons_self t _

/-- Elements of the popped heap were in the heap. -/
theorem heappop_mem_snd (heap : List α) (t : α) (q' : List α)
    (h : heappop lt heap = some (t, q')) : ∀ x ∈ q', x ∈ heap := by
  intro x hx
  rw [← Multiset.mem_coe, heappop_multiset lt heap t q' h, Multiset.mem_cons]
  exact Or.inr (Multiset.mem_coe.mpr hx)

/-- Every element of the heap is either the popped element or in the rest. -/
theorem heappop_mem_orig (heap : List α) (t : α) (q' : List α)
    (h : heappop lt heap = some (t, q')) : ∀ x ∈ heap, x = t ∨ x ∈ q' := by
  intro x hx
  have := Multiset.mem_coe.mpr hx
  rw [heappop_multiset lt heap t q' h, Multiset.mem_cons] at this
  exact this.imp id Multiset.mem_coe.mp

end HeapqLemmas

/-! ### Branch-and-bound lemmas -/

/-- `bbWeight` through the multiset of the queue. -/
theorem bbWeight_eq_multiset (q : List BBTree) :
    bbWeight q = (Multiset.map BBTree.size (q : Multiset BBTree)).sum := by
  simp [bbWeight]

/-- Pushing adds the pushed tree's size. -/
theorem heappush_bbWeight (q : List BBTree) (t : BBTree) :
    bbWeight (heappush bbLt q t) = t.size + bbWeight q := by
  rw [bbWeight_eq_multiset, heappush_multiset, Multiset.map_cons,
    Multiset.sum_cons, bbWeight_eq_multiset]

/-- Popping removes the popped tree's size. -/
theorem heappop_bbWeight (q : List BBTree) (t : BBTree) (q' : List BBTree)
    (h : heappop bbLt q = some (t, q')) :
    bbWeight q = t.size + bbWeight q' := by
  rw [bbWeight_eq_multiset, heappop_multiset bbLt q t q' h, Multiset.map_cons,
    Multiset.sum_cons, bbWeight_eq_multiset]

/-- `solve_and_push` adds at most the pushed tree's size. -/
theorem bbPush_weight_le (q : List BBTree) (t : BBTree) :
    bbWeight (bbPush q t) ≤ t.size + bbWeight q := by
  unfold bbPush
  by_cases hf : t.infeasible = true
  · rw [if_pos hf]
    exact Nat.le_add_left _ _
  · rw [if_neg hf, heappush_bbWeight]

/-- Elements of a `solve_and_push`ed queue. -/
theorem bbPush_mem (q : List BBTree) (t a : BBTree) (h : a ∈ bbPush q t) :
    a = t ∨ a ∈ q := by
  unfold bbPush at h
  by_cases hf : t.infeasible = true
  · rw [if_pos hf] at h
    exact Or.inr h
  · rw [if_neg hf] at h
    exact (heappush_mem bbLt q t a).mp h

/-- A `solve_and_push`ed queue keeps its previous elements. -/
theorem bbPush_mem_mono (q : List BBTree) (t a : BBTree) (h : a ∈ q) :
    a ∈ bbPush q t := by
  unfold bbPush
  by_cases hf : t.infeasible = true
  · rw [if_pos hf]
    exact h
  · rw [if_neg hf]
    exact (heappush_mem bbLt q t a).mpr (Or.inr h)

/-- Every tree's size is positive. -/
theorem BBTree.size_pos (t : BBTree) : 0 < t.size := by
  cases t with
  | leaf o i f => exact Nat.one_pos
  | branch o i f l r =>
    show 0 < 1 + l.size + r.size
    omega

/-- A node's objective bounds every reachable integer-feasible node's
objective from below (the relaxation-bound half of the contract). -/
theorem intFeas_obj_le (t : BBTree) (h : contractB t = true) :
    ∀ m ∈ intFeasList t, t.obj ≤ m.obj := by
  induction t with
  | leaf o i f =>
    intro m hm
    unfold intFeasList at hm
    by_cases hif : (i && !f) = true
    · rw [if_pos hif] at hm
      rcases List.mem_singleton.mp hm with rfl
      exact le_refl _
    · rw [if_neg hif] at hm
      exact absurd hm (List.not_mem_nil m)
  | branch o i f l r ihl ihr =>
    intro m hm
    unfold contractB at h
    simp only [Bool.and_eq_true, decide_eq_true_eq] at h
    obtain ⟨⟨⟨⟨hol, hor⟩, hcl⟩, hcr⟩, -⟩ := h
    unfold intFeasList at hm
    rcases List.mem_append.mp hm with hm | hm
    · rcases List.mem_append.mp hm with hm | hm
      · by_cases hif : (i && !f) = true
        · rw [if_pos hif] at hm
          rcases List.mem_singleton.mp hm with rfl
          exact le_refl _
        · rw [if_neg hif] at hm
          exact absurd hm (List.not_mem_nil m)
      · exact le_trans hol (ihl hcl m hm)
    · exact le_trans hor (ihr hcr m hm)

/-- An infeasible node admits no reachable integer-feasible node (the
infeasibility-soundness half of the contract). -/
theorem intFeas_empty_of_infeasible (t : BBTree) (hc : contractB t = true)
    (hf : t.infeasible = true) : intFeasList t = [] := by
  cases t with
  | leaf o i f =>
    unfold intFeasList
    have : (i && !f) = false := by
      have : f = true := hf
      rw [this]
      simp
    rw [this]
    simp
  | branch o i f l r =>
    unfold contractB at hc
    simp only [Bool.and_eq_true, Bool.or_eq_true, Bool.not_eq_true',
      decide_eq_true_eq] at hc
    obtain ⟨-, hlast⟩ := hc
    have hff : f = true := hf
    rcases hlast with hlast | hlast
    · rw [hff] at hlast
      exact Bool.noConfusion hlast
    · unfold intFeasList
      have hempty1 : intFeasList l = [] := List.isEmpty_iff.mp hlast.1
      have hempty2 : intFeasList r = [] := List.isEmpty_iff.mp hlast.2
      have : (i && !f) = false := by rw [hff]; simp
      rw [this, hempty1, hempty2]
      simp

/-- `obj > min_obj` on the recorded incumbent objective agrees with the
loop's own test. -/
theorem optGt_map (inc : Option BBTree) (o : ℚ) :
    optGt (inc.map BBTree.obj) o = bbGtMin o inc := by
  cases inc <;> rfl

/-- A Boolean that is not `true` is `false`. -/
theorem bool_eq_false {b : Bool} (h : ¬ b = true) : b = false := by
  cases b
  · rfl
  · exact absurd rfl h

/-- Membership in a `solve_and_push`ed queue: a new member is the pushed tree
(then necessarily feasible) or an old member. -/
theorem bbPush_mem_feas (q : List BBTree) (t a : BBTree) (h : a ∈ bbPush q t) :
    (a = t ∧ t.infeasible = false) ∨ a ∈ q := by
  unfold bbPush at h
  by_cases hf : t.infeasible = true
  · rw [if_pos hf] at h
    exact Or.inr h
  · rw [if_neg hf] at h
    rcases (heappush_mem bbLt q t a).mp h with rfl | h
    · exact Or.inl ⟨rfl, bool_eq_false hf⟩
    · exact Or.inr h

/-- A feasible tree is in its own `solve_and_push`ed queue. -/
theorem bbPush_self_mem (q : List BBTree) (t : BBTree)
    (h : t.infeasible = false) : t ∈ bbPush q t := by
  unfold bbPush
  rw [if_neg (by rw [h]; exact Bool.false_ne_true)]
  exact (heappush_mem bbLt q t t).mpr (Or.inl rfl)

/-- Main invariant of the `BB` loop: with enough fuel, a queue of solved,
feasible, contract-satisfying nodes and a sound incumbent, the loop returns
without error an incumbent that is integer-feasible, no worse than the given
incumbent, and no worse than any integer-feasible node reachable from any
queued node. -/
theorem bbLoop_ok (fuel : ℕ) :
    ∀ (q : List BBTree) (inc : Option BBTree),
      bbWeight q < fuel →
      (∀ t ∈ q, contractB t = true ∧ t.infeasible = false) →
      (∀ i, inc = some i → i.integer = true ∧ i.infeasible = false) →
      ∃ res, (bbLoop fuel q inc).2 = .ok res ∧
        (∀ i, inc = some i → ∃ r, res = some r ∧ r.obj ≤ i.obj) ∧
        (∀ r, res = some r → r.integer = true ∧ r.infeasible = false) ∧
        (∀ t ∈ q, ∀ m ∈ intFeasList t, ∃ r, res = some r ∧ r.obj ≤ m.obj) := by
  induction fuel with
  | zero =>
    intro q inc hw
    exact absurd hw (Nat.not_lt_zero _)
  | succ f ih =>
    intro q inc hw hq hinc
    rw [bbLoop]
    cases hpop : heappop bbLt q with
    | none =>
      dsimp only
      have hqnil : q = [] := (heappop_none_iff bbLt q).mp hpop
      refine ⟨inc, rfl, fun i hi => ⟨i, hi, le_refl _⟩, hinc, ?_⟩
      intro t ht
      rw [hqnil] at ht
      exact absurd ht (List.not_mem_nil t)
    | some tq =>
      obtain ⟨t, q'⟩ := tq
      dsimp only
      have htq : t ∈ q := heappop_mem_fst bbLt q t q' hpop
      obtain ⟨hct, hft⟩ := hq t htq
      have hq' : ∀ u ∈ q', contractB u = true ∧ u.infeasible = false :=
        fun u hu => hq u (heappop_mem_snd bbLt q t q' hpop u hu)
      have hwq : bbWeight q = t.size + bbWeight q' := heappop_bbWeight q t q' hpop
      have hw' : bbWeight q' < f := by
        have := t.size_pos
        omega
      by_cases hti : t.integer = true
      · rw [if_pos hti]
        dsimp only
        by_cases himp : bbLtMin t.obj inc = true
        · rw [if_pos himp]
          obtain ⟨res, hres, h1, h2, h4⟩ := ih q' (some t) hw' hq'
            (fun i hi => by
              injection hi with hh
              subst hh
              exact ⟨hti, hft⟩)
          refine ⟨res, hres, ?_, h2, ?_⟩
          · intro i hi
            obtain ⟨r, hr, hrle⟩ := h1 t rfl
            have hlt : t.obj < i.obj := by
              rw [hi] at himp
              exact of_decide_eq_true himp
            exact ⟨r, hr, le_trans hrle (le_of_lt hlt)⟩
          · intro u hu m hm
            rcases heappop_mem_orig bbLt q t q' hpop u hu with rfl | hu'
            · obtain ⟨r, hr, hrle⟩ := h1 u rfl
              exact ⟨r, hr, le_trans hrle (intFeas_obj_le u hct m hm)⟩
            · exact h4 u hu' m hm
        · rw [if_neg himp]
          obtain ⟨res, hres, h1, h2, h4⟩ := ih q' inc hw' hq' hinc
          refine ⟨res, hres, h1, h2, ?_⟩
          intro u hu m hm
          rcases heappop_mem_orig bbLt q t q' hpop u hu with rfl | hu'
          · cases hi0 : inc with
            | none =>
              rw [hi0] at himp
              exact absurd rfl himp
            | some i0 =>
              have hle : i0.obj ≤ u.obj := by
                rw [hi0] at himp
                unfold bbLtMin at himp
                exact le_of_not_lt (of_decide_eq_false (bool_eq_false himp))
              obtain ⟨r, hr, hrle⟩ := h1 i0 hi0
              exact ⟨r, hr, le_trans hrle (le_trans hle (intFeas_obj_le u hct m hm))⟩
          · exact h4 u hu' m hm
      · rw [if_neg hti]
        by_cases hgt : bbGtMin t.obj inc = true
        · rw [if_pos hgt]
          dsimp only
          obtain ⟨res, hres, h1, h2, h4⟩ := ih q' inc hw' hq' hinc
          refine ⟨res, hres, h1, h2, ?_⟩
          intro u hu m hm
          rcases heappop_mem_orig bbLt q t q' hpop u hu with rfl | hu'
          · cases hi0 : inc with
            | none =>
              rw [hi0] at hgt
              exact Bool.noConfusion hgt
            | some i0 =>
              have hlt : i0.obj < u.obj := by
                rw [hi0] at hgt
                unfold bbGtMin at hgt
                exact of_decide_eq_true hgt
              obtain ⟨r, hr, hrle⟩ := h1 i0 hi0
              exact ⟨r, hr,
                le_trans hrle (le_trans (le_of_lt hlt) (intFeas_obj_le u hct m hm))⟩
          · exact h4 u hu' m hm
        · rw [if_neg hgt]
          cases t with
          | leaf o i ff =>
            exfalso
            have hi : i = false := bool_eq_false hti
            have hf : ff = false := hft
            unfold contractB at hct
            rw [hi, hf] at hct
            exact Bool.noConfusion hct
          | branch o i ff l r =>
            dsimp only
            have hcc := hct
            unfold contractB at hcc
            simp only [Bool.and_eq_true, decide_eq_true_eq] at hcc
            obtain ⟨⟨⟨⟨hol, hor⟩, hcl⟩, hcr⟩, -⟩ := hcc
            have hsz : (BBTree.branch o i ff l r).size = 1 + l.size + r.size := rfl
            have hw2 : bbWeight (bbPush (bbPush q' l) r) < f := by
              have e1 := bbPush_weight_le (bbPush q' l) r
              have e2 := bbPush_weight_le q' l
              omega
            have hq2 : ∀ u ∈ bbPush (bbPush q' l) r,
                contractB u = true ∧ u.infeasible = false := by
              intro u hu
              rcases bbPush_mem_feas (bbPush q' l) r u hu with ⟨rfl, hrf⟩ | hu'
              · exact ⟨hcr, hrf⟩
              · rcases bbPush_mem_feas q' l u hu' with ⟨rfl, hlf⟩ | hu''
                · exact ⟨hcl, hlf⟩
                · exact hq' u hu''
            obtain ⟨res, hres, h1, h2, h4⟩ :=
              ih (bbPush (bbPush q' l) r) inc hw2 hq2 hinc
            refine ⟨res, hres, h1, h2, ?_⟩
            intro u hu m hm
            rcases heappop_mem_orig bbLt q _ q' hpop u hu with rfl | hu'
            · have hi : i = false := bool_eq_false hti
              unfold intFeasList at hm
              rw [hi] at hm
              simp only [Bool.false_and, Bool.false_eq_true, if_false,
                List.nil_append, List.mem_append] at hm
              rcases hm with hm | hm
              · cases hlf : l.infeasible with
                | true =>
                  rw [intFeas_empty_of_infeasible l hcl hlf] at hm
                  exact absurd hm (List.not_mem_nil m)
                | false =>
                  have hlmem : l ∈ bbPush (bbPush q' l) r :=
                    bbPush_mem_mono (bbPush q' l) r l (bbPush_self_mem q' l hlf)
                  exact h4 l hlmem m hm
              · cases hrf : r.infeasible with
                | true =>
                  rw [intFeas_empty_of_infeasible r hcr hrf] at hm
                  exact absurd hm (List.not_mem_nil m)
                | false =>
                  have hrmem : r ∈ bbPush (bbPush q' l) r :=
                    bbPush_self_mem (bbPush q' l) r hrf
                  exact h4 r hrmem m hm
            · have hmem : u ∈ bbPush (bbPush q' l) r :=
                bbPush_mem_mono (bbPush q' l) r u
                  (bbPush_mem_mono q' l u hu')
              exact h4 u hmem m hm

/-- **C3.**  For a root whose abstract node contract holds — the objective is
a valid relaxation lower bound along `split`, an infeasible relaxation has no
integer-feasible point below it, and every feasible non-integer node can be
split into exactly two children — `BB` runs to completion and: any returned
incumbent is integer-feasible with objective `≤` the objective of every
integer-feasible node reachable from the root, and no incumbent is returned
when the root relaxation is infeasible. -/
theorem bb_incumbent_optimal (root : BBTree) (hc : contractB root = true) :
    ∃ res, (bbRun root).2 = .ok res ∧
      (root.infeasible = true → res = none) ∧
      (∀ r, res = some r → r.integer = true ∧ r.infeasible = false ∧
        ∀ m ∈ intFeasList root, r.obj ≤ m.obj) := by
  unfold bbRun bbPush
  by_cases hinf : root.infeasible = true
  · rw [if_pos hinf]
    have hrun : bbLoop (root.size + 1) [] none = ([], .ok none) := by
      rw [bbLoop]
      rfl
    rw [hrun]
    exact ⟨none, rfl, fun _ => rfl, fun r hr => Option.noConfusion hr⟩
  · rw [if_neg hinf]
    have hmem : ∀ t ∈ heappush bbLt [] root,
        contractB t = true ∧ t.infeasible = false := by
      intro t ht
      rcases (heappush_mem bbLt [] root t).mp ht with rfl | ht'
      · exact ⟨hc, bool_eq_false hinf⟩
      · exact absurd ht' (List.not_mem_nil t)
    have hwt : bbWeight (heappush bbLt [] root) < root.size + 1 := by
      rw [heappush_bbWeight]
      have : bbWeight ([] : List BBTree) = 0 := rfl
      omega
    obtain ⟨res, hres, -, h2, h4⟩ := bbLoop_ok (root.size + 1)
      (heappush bbLt [] root) none hwt hmem (fun i hi => Option.noConfusion hi)
    refine ⟨res, hres, fun hr => absurd hr hinf, ?_⟩
    intro r hr
    obtain ⟨hint, hfeas⟩ := h2 r hr
    refine ⟨hint, hfeas, ?_⟩
    intro m hm
    have hrootmem : root ∈ heappush bbLt [] root :=
      (heappush_mem bbLt [] root root).mpr (Or.inl rfl)
    obtain ⟨r', hr', hle⟩ := h4 root hrootmem m hm
    rw [hr] at hr'
    injection hr' with hh
    rw [hh]
    exact hle

/-- Witness for C3 at a concrete input: `witBBTree2` satisfies the contract
and `BB` returns its optimal integer-feasible node. -/
theorem bb_incumbent_optimal_witness :
    contractB witBBTree2 = true ∧
    (∃ res, (bbRun witBBTree2).2 = .ok res ∧
      (witBBTree2.infeasible = true → res = none) ∧
      (∀ r, res = some r → r.integer = true ∧ r.infeasible = false ∧
        ∀ m ∈ intFeasList witBBTree2, r.obj ≤ m.obj)) :=
  ⟨by decide, bb_incumbent_optimal witBBTree2 (by decide)⟩

/-- Trace-level pruning rule of the `BB` loop: a popped non-integer node is
pruned exactly when its objective is strictly greater than the incumbent
objective at pop time. -/
theorem bbLoop_pruned_iff (fuel : ℕ) :
    ∀ (q : List BBTree) (inc : Option BBTree) (e : BBEvent),
      e ∈ (bbLoop fuel q inc).1 → e.integer = false →
      (e.act = BBAct.pruned ↔ optGt e.minAtPop e.obj = true) := by
  induction fuel with
  | zero =>
    intro q inc e he
    simp [bbLoop] at he
  | succ f ih =>
    intro q inc e he hint
    rw [bbLoop] at he
    cases hpop : heappop bbLt q with
    | none =>
      rw [hpop] at he
      simp at he
    | some tq =>
      obtain ⟨t, q'⟩ := tq
      rw [hpop] at he
      dsimp only at he
      by_cases hti : t.integer = true
      · rw [if_pos hti] at he
        dsimp only at he
        rcases List.mem_cons.mp he with rfl | he
        · dsimp only at hint
          rw [hti] at hint
          exact Bool.noConfusion hint
        · exact ih _ _ e he hint
      · rw [if_neg hti] at he
        by_cases hgt : bbGtMin t.obj inc = true
        · rw [if_pos hgt] at he
          dsimp only at he
          rcases List.mem_cons.mp he with rfl | he
          · exact iff_of_true rfl (by dsimp only; rw [optGt_map]; exact hgt)
          · exact ih _ _ e he hint
        · rw [if_neg hgt] at he
          cases t with
          | leaf o i ff =>
            dsimp only at he
            rcases List.mem_cons.mp he with rfl | he
            · refine iff_of_false (fun hc => BBAct.noConfusion hc) ?_
              dsimp only
              rw [optGt_map]
              exact hgt
            · exact absurd he (List.not_mem_nil e)
          | branch o i ff l r =>
            dsimp only at he
            rcases List.mem_cons.mp he with rfl | he
            · refine iff_of_false (fun hc => BBAct.noConfusion hc) ?_
              dsimp only
              rw [optGt_map]
              exact hgt
            · exact ih _ _ e he hint

/-- **C7 (amended).**  In the branch-and-bound driver, a popped non-integer
node is pruned (discarded without being split, contributing no children) if
and only if its relaxation objective is *strictly greater* than the current
incumbent's objective; a node whose objective *equals* the incumbent's is
split. -/
theorem bb_pruned_iff_strictly_greater (root : BBTree) (e : BBEvent)
    (he : e ∈ (bbRun root).1) (hint : e.integer = false) :
    e.act = BBAct.pruned ↔ optGt e.minAtPop e.obj = true := by
  unfold bbRun at he
  exact bbLoop_pruned_iff (root.size + 1) _ _ e he hint

/-- **C7, counterexample.**  On `cexBBTree` the loop pops a non-integer node
whose objective `5` is greater than or equal to (namely equal to) the
incumbent objective `5`, and splits it — the node is not pruned and its
children are pushed, contradicting the claim that every such node is
discarded without splitting. -/
theorem bb_splits_node_with_equal_bound :
    (⟨5, false, some 5, BBAct.split⟩ : BBEvent) ∈ (bbRun cexBBTree).1 := by
  decide

/-- Witness for C7 at a concrete input: a non-integer node with objective `6`
popped while the incumbent objective is `5` is pruned. -/
theorem bb_pruned_iff_strictly_greater_witness :
    (⟨6, false, some 5, BBAct.pruned⟩ : BBEvent) ∈ (bbRun witBBTree).1 ∧
    ((⟨6, false, some 5, BBAct.pruned⟩ : BBEvent).act = BBAct.pruned ↔
      optGt (some 5) 6 = true) :=
  ⟨by decide,
    bb_pruned_iff_strictly_greater witBBTree ⟨6, false, some 5, BBAct.pruned⟩
      (by decide) (by decide)⟩

/-- **C5.**  Characterisation of `ESPPRC.extended_label`: extension to a
customer computes `cost' = cost + arcCost(cur→to) − dual[cur]`,
`load' = load + demand(to)` and `time' = max(time + times[cur→to],
earliest(to))`; it is infeasible (no label) exactly when `load'` exceeds the
capacity or `time'` exceeds the latest time-window bound, and otherwise the
produced label carries exactly that triple with the source label as
predecessor. -/
theorem extended_label_characterization (inst : Inst) (fl : PLabel)
    (fi toc : ℕ) (cus : Customer) (h : inst.customers[toc]? = some cus) :
    (extendCore inst fl fi toc = none ↔
      (fl.load + cus.demand > inst.capacity ∨
        max (fl.time + inst.times fl.customer toc) cus.tw0 > cus.tw1)) ∧
    (∀ l, extendCore inst fl fi toc = some l →
      l.cost = fl.cost + inst.costs fl.customer toc - inst.duals fl.customer ∧
      l.load = fl.load + cus.demand ∧
      l.time = max (fl.time + inst.times fl.customer toc) cus.tw0 ∧
      l.prev = some fi) := by
  by_cases hl : fl.load + cus.demand > inst.capacity
  · constructor
    · unfold extendCore extendStep
      rw [h]
      simp only [if_pos hl, Option.map_none, Option.map_none']
      exact iff_of_true trivial (Or.inl hl)
    · intro l hle
      unfold extendCore extendStep at hle
      rw [h] at hle
      simp only [if_pos hl, Option.map_none, Option.map_none'] at hle
      exact Option.noConfusion hle
  · by_cases ht : max (fl.time + inst.times fl.customer toc) cus.tw0 > cus.tw1
    · constructor
      · unfold extendCore extendStep
        rw [h]
        simp only [if_neg hl, if_pos ht, Option.map_none, Option.map_none']
        exact iff_of_true trivial (Or.inr ht)
      · intro l hle
        unfold extendCore extendStep at hle
        rw [h] at hle
        simp only [if_neg hl, if_pos ht, Option.map_none, Option.map_none'] at hle
        exact Option.noConfusion hle
    · constructor
      · unfold extendCore extendStep
        rw [h]
        simp only [if_neg hl, if_neg ht, Option.map_some, Option.map_some']
        constructor
        · intro hc
          exact Option.noConfusion hc
        · intro hc
          rcases hc with hc | hc
          · exact absurd hc hl
          · exact absurd hc ht
      · intro l hle
        unfold extendCore extendStep at hle
        rw [h] at hle
        simp only [if_neg hl, if_neg ht, Option.map_some, Option.map_some', Option.some_inj] at hle
        split at hle <;> (subst hle; exact ⟨rfl, rfl, rfl, rfl⟩)

/-- Witness for C5 at a concrete input: the depot label of `wellInst` extended
to customer `1`. -/
theorem extended_label_characterization_witness :
    wellInst.customers[1]? = some ⟨1, 0, 100⟩ ∧
    (extendCore wellInst depotLabel 0 1 = none ↔
      (depotLabel.load + (⟨1, 0, 100⟩ : Customer).demand > wellInst.capacity ∨
        max (depotLabel.time + wellInst.times depotLabel.customer 1)
          (⟨1, 0, 100⟩ : Customer).tw0 > (⟨1, 0, 100⟩ : Customer).tw1)) :=
  ⟨by decide,
    (extended_label_characterization wellInst depotLabel 0 1 ⟨1, 0, 100⟩ (by decide)).1⟩

/-- **C6 (amended), part 1.**  Dominance is asymmetric: no two labels ever
dominate each other, in particular no two retained labels at a customer
mutually dominate. -/
theorem dominates_asymmetric (a b : PLabel) :
    (dominatesB a b && dominatesB b a) = false := by
  cases hab : dominatesB a b with
  | false => simp
  | true =>
    cases hba : dominatesB b a with
    | false => simp
    | true =>
      exfalso
      unfold dominatesB at hab hba
      split at hab
      · next hle =>
        split at hba
        · next hle' =>
          have hQ := of_decide_eq_true hab
          have hcost : a.cost = b.cost := le_antisymm hle.1 hle'.1
          have hload : a.load = b.load := le_antisymm hle.2.1 hle'.2.1
          have htime : a.time = b.time := le_antisymm hle.2.2.1 hle'.2.2.1
          have hset : a.unreachable = b.unreachable :=
            Finset.Subset.antisymm hle.2.2.2 hle'.2.2.2
          rcases hQ with h | h | h | h
          · exact h hcost
          · exact h hload
          · exact h htime
          · exact h (by rw [hset])
        · exact Bool.noConfusion hba
      · exact Bool.noConfusion hab

/-- **C6, counterexample.**  On `antichainInst` the exact engine's final state
retains, at one customer's pool, two distinct labels one of which dominates
the other: the antichain property does not hold at every point of the solve
(a retained label's `unreachable_cs` grows in place when it is popped, which
can make it dominated by an already retained cheaper label). -/
theorem retained_pool_not_antichain :
    (finalState .exact antichainInst 500).map poolDominationB = some true := by
  decide

/-- **C9.**  `infeasInst` admits no feasible elementary depot-to-depot route,
and `ESPPRC.solve` raises `ValueError` (from `min()` over the empty
`depot.labels`) instead of returning an explicit no-solution result. -/
theorem espprc_infeasible_raises_value_error :
    minFeasCost infeasInst = none ∧
    espprcSolve infeasInst 50 = .error .valueError := by
  constructor
  · decide
  · decide

/-- **C4.**  On `wellInst` the exact engine returns a path and its cost, while
`SSR_SPPRC.solve` raises `AttributeError` at the very first extension (the
depot label is a plain `Label` without `n_visited`, and no object ever has an
`n_customers` attribute), so the relaxation-bound comparison
`SSR.cost ≤ ESPPRC.cost` never takes place. -/
theorem ssr_solve_raises_attribute_error :
    espprcSolve wellInst 50 = .ok ([0, 1, 0], 2) ∧
    ssrSolve wellInst 50 = .error .attributeError := by
  constructor
  · decide
  · decide

/-- **C2.**  On `wellInst`, `DSSR_ESPPRC.solve` raises `AttributeError`
instead of terminating with elementary paths: the inherited solve dispatches
to `SSR_SPPRC.extended_label`, which reads the missing `n_visited` attribute
of the depot label; moreover `DSSR_ESPPRC.solve` contains no re-solve loop and
would iterate over the `(path, cost)` tuple even if the inner solve
returned. -/
theorem dssr_solve_raises_attribute_error :
    dssrSolve wellInst 50 = .error .attributeError := by
  decide

/-- **C8.**  `SSR_SPPRC.extended_label` raises `AttributeError` on every
resource-feasible extension: from the depot label because `n_visited` is
absent, and even from a label carrying `n_visited` because the bound check
reads `self.n_customers`, an attribute no object of the program ever
defines — so no `visited_count` accounting or bound check is ever
performed. -/
theorem ssr_extension_raises_attribute_error :
    ssrExtend wellInst depotLabel 0 1 = .error .attributeError ∧
    ssrExtend wellInst { depotLabel with nVisited := some 0 } 0 1 =
      .error .attributeError := by
  constructor
  · decide
  · decide

/-- **C10.**  Every label any variant's `extended_label` produces is
constructed by the base `Label.__init__` (the `label_cls` attribute is never
called), so the dominance comparison Python dispatches on such a pooled label
is the base cost/load/time/unreachable-set rule. -/
theorem extension_constructs_base_labels (v : Variant) (inst : Inst)
    (crit : Finset ℕ) (fl : PLabel) (fi toc : ℕ) (l : PLabel)
    (h : extendVariant v inst crit fl fi toc = .ok (some l)) :
    l.cls = .base ∧ ∀ other, dispatchDominates l other = dominatesB l other := by
  have hcls : l.cls = .base := by
    cases v with
    | exact =>
      unfold extendVariant extendCore at h
      cases hstep : extendStep inst fl.customer (fl.cost, fl.load, fl.time) toc with
      | none => rw [hstep] at h; exact Option.noConfusion (Except.ok.inj h)
      | some acc =>
        rw [hstep] at h
        simp only [Option.map_some, Option.map_some'] at h
        have := Except.ok.inj h
        have := Option.some_inj.mp this
        subst this
        split
        · rfl
        · rfl
    | ssr =>
      unfold extendVariant ssrExtend at h
      cases hc : extendCore inst fl fi toc with
      | none => rw [hc] at h; exact Option.noConfusion (Except.ok.inj h)
      | some l' =>
        rw [hc] at h
        cases hv : fl.nVisited with
        | none => rw [hv] at h; exact Except.noConfusion h
        | some n => rw [hv] at h; exact Except.noConfusion h
    | dssr =>
      unfold extendVariant dssrExtend ssrExtend at h
      cases hc : extendCore inst fl fi toc with
      | none => rw [hc] at h; exact Option.noConfusion (Except.ok.inj h)
      | some l' =>
        rw [hc] at h
        cases hv : fl.nVisited with
        | none => rw [hv] at h; exact Except.noConfusion h
        | some n => rw [hv] at h; exact Except.noConfusion h
  exact ⟨hcls, fun other => by unfold dispatchDominates; rw [hcls]⟩

/-- Witness for C10: the depot-label extension on `wellInst` produces a label
of class `Label`, whose dispatched dominance is the base rule. -/
theorem extension_constructs_base_labels_witness :
    extendVariant .exact wellInst ∅ depotLabel 0 1 = .ok (some c10Label) ∧
    c10Label.cls = .base ∧
    dispatchDominates c10Label depotLabel = dominatesB c10Label depotLabel :=
  ⟨by decide,
    (extension_constructs_base_labels .exact wellInst ∅ depotLabel 0 1 c10Label
      (by decide)).1,
    (extension_constructs_base_labels .exact wellInst ∅ depotLabel 0 1 c10Label
      (by decide)).2 depotLabel⟩

/-! ### Path and route-evaluation lemmas for the exact engine -/

/-- `pathOfFuel` does not depend on the fuel once it exceeds the index. -/
theorem pathOfFuel_congr (arena : List PLabel) (i : ℕ) :
    ∀ f1 f2 : ℕ, i < f1 → i < f2 →
      pathOfFuel f1 arena i = pathOfFuel f2 arena i := by
  induction i using Nat.strong_induction_on with
  | _ i ih =>
    intro f1 f2 h1 h2
    cases f1 with
    | zero => omega
    | succ g1 =>
      cases f2 with
      | zero => omega
      | succ g2 =>
        rw [pathOfFuel, pathOfFuel]
        cases arena[i]? with
        | none => rfl
        | some l =>
          dsimp only
          cases l.prev with
          | none => rfl
          | some p =>
            dsimp only
            by_cases hp : p < i
            · rw [if_pos hp, if_pos hp, ih p hp g1 g2 (by omega) (by omega)]
            · rw [if_neg hp, if_neg hp]

/-- `pathOf` of a missing entry. -/
theorem pathOf_none (arena : List PLabel) (i : ℕ) (h : arena[i]? = none) :
    pathOf arena i = [] := by
  unfold pathOf
  rw [pathOfFuel, h]

/-- `pathOf` of a root label (no predecessor). -/
theorem pathOf_root (arena : List PLabel) (i : ℕ) (l : PLabel)
    (h : arena[i]? = some l) (hp : l.prev = none) :
    pathOf arena i = [l.customer] := by
  unfold pathOf
  rw [pathOfFuel, h]
  dsimp only
  rw [hp]

/-- `pathOf` of a label with an earlier predecessor. -/
theorem pathOf_step (arena : List PLabel) (i : ℕ) (l : PLabel) (p : ℕ)
    (h : arena[i]? = some l) (hp : l.prev = some p) (hpi : p < i) :
    pathOf arena i = pathOf arena p ++ [l.customer] := by
  unfold pathOf
  rw [pathOfFuel, h]
  dsimp only
  rw [hp]
  dsimp only
  rw [if_pos hpi, pathOfFuel_congr arena p i (p + 1) hpi (Nat.lt_succ_self p)]

/-- `pathOf` when the guard fails (never the case for engine arenas). -/
theorem pathOf_badstep (arena : List PLabel) (i : ℕ) (l : PLabel) (p : ℕ)
    (h : arena[i]? = some l) (hp : l.prev = some p) (hpi : ¬ p < i) :
    pathOf arena i = [l.customer] := by
  unfold pathOf
  rw [pathOfFuel, h]
  dsimp only
  rw [hp]
  dsimp only
  rw [if_neg hpi]

/-- Paths only depend on the customer/prev data of the arena. -/
theorem pathOf_sameShape (a b : List PLabel) (h : SameShape a b) :
    ∀ i, pathOf a i = pathOf b i := by
  intro i
  induction i using Nat.strong_induction_on with
  | _ i ih =>
    obtain ⟨hlen, hsh⟩ := h
    have hj := hsh i
    cases ha : a[i]? with
    | none =>
      cases hb : b[i]? with
      | none => rw [pathOf_none a i ha, pathOf_none b i hb]
      | some lb => rw [ha, hb] at hj; exact Option.noConfusion hj
    | some la =>
      cases hb : b[i]? with
      | none => rw [ha, hb] at hj; exact Option.noConfusion hj
      | some lb =>
        rw [ha, hb] at hj
        simp only [Option.map_some, Option.map_some', Option.some_inj,
          Prod.mk.injEq] at hj
        obtain ⟨hcus, hprev⟩ := hj
        cases hpa : la.prev with
        | none =>
          rw [pathOf_root a i la ha hpa,
            pathOf_root b i lb hb (by rw [← hprev, hpa]), hcus]
        | some p =>
          have hpb : lb.prev = some p := by rw [← hprev, hpa]
          by_cases hp : p < i
          · rw [pathOf_step a i la p ha hpa hp, pathOf_step b i lb p hb hpb hp,
              ih p hp, hcus]
          · rw [pathOf_badstep a i la p ha hpa hp,
              pathOf_badstep b i lb p hb hpb hp, hcus]

/-- Appending to the arena does not change the paths of existing entries. -/
theorem pathOf_append (arena : List PLabel) (x : PLabel) :
    ∀ i, i < arena.length → pathOf (arena ++ [x]) i = pathOf arena i := by
  intro i
  induction i using Nat.strong_induction_on with
  | _ i ih =>
    intro hi
    have hia : (arena ++ [x])[i]? = arena[i]? := List.getElem?_append_left hi
    have hl : arena[i]? = some arena[i] := List.getElem?_eq_getElem hi
    cases hprev : arena[i].prev with
    | none =>
      rw [pathOf_root (arena ++ [x]) i arena[i] (by rw [hia, hl]) hprev,
        pathOf_root arena i arena[i] hl hprev]
    | some p =>
      by_cases hp : p < i
      · rw [pathOf_step (arena ++ [x]) i arena[i] p (by rw [hia, hl]) hprev hp,
          pathOf_step arena i arena[i] p hl hprev hp, ih p hp (Nat.lt_trans hp hi)]
      · rw [pathOf_badstep (arena ++ [x]) i arena[i] p (by rw [hia, hl]) hprev hp,
          pathOf_badstep arena i arena[i] p hl hprev hp]

/-- A label's path ends at the label's own customer. -/
theorem pathOf_getLast (arena : List PLabel) (i : ℕ) (l : PLabel)
    (h : arena[i]? = some l) :
    (pathOf arena i).getLast? = some l.customer := by
  cases hp : l.prev with
  | none => rw [pathOf_root arena i l h hp]; rfl
  | some p =>
    by_cases hpi : p < i
    · rw [pathOf_step arena i l p h hp hpi]
      exact List.getLast?_concat _
    · rw [pathOf_badstep arena i l p h hp hpi]; rfl

/-- A present label has a nonempty path. -/
theorem pathOf_ne_nil (arena : List PLabel) (i : ℕ) (l : PLabel)
    (h : arena[i]? = some l) : pathOf arena i ≠ [] := by
  intro hnil
  have := pathOf_getLast arena i l h
  rw [hnil] at this
  exact Option.noConfusion this

/-- A successful extension step targets an existing customer. -/
theorem extendStep_lt (inst : Inst) (cur : ℕ) (acc : ℚ × ℚ × ℚ) (toc : ℕ)
    (a : ℚ × ℚ × ℚ) (h : extendStep inst cur acc toc = some a) : toc < inst.n := by
  unfold extendStep at h
  cases hc : inst.customers[toc]? with
  | none => rw [hc] at h; exact Option.noConfusion h
  | some cus => exact (List.getElem?_eq_some.mp hc).1

/-- Replaying a route visits only existing customers. -/
theorem evalFrom_bounds (inst : Inst) :
    ∀ (xs : List ℕ) (cur : ℕ) (acc acc' : ℚ × ℚ × ℚ),
      evalFrom inst cur acc xs = some acc' → ∀ x ∈ xs, x < inst.n := by
  intro xs
  induction xs with
  | nil => intro cur acc acc' _ x hx; exact absurd hx (List.not_mem_nil x)
  | cons y ys ih =>
    intro cur acc acc' h x hx
    unfold evalFrom at h
    cases hs : extendStep inst cur acc y with
    | none => rw [hs] at h; exact Option.noConfusion h
    | some a =>
      rw [hs] at h
      rcases List.mem_cons.mp hx with rfl | hx'
      · exact extendStep_lt inst cur acc x a hs
      · exact ih y a acc' h x hx'

/-- Replaying one more customer extends from the route's last customer. -/
theorem evalFrom_snoc (inst : Inst) :
    ∀ (xs : List ℕ) (cur : ℕ) (acc acc' : ℚ × ℚ × ℚ) (c : ℕ),
      evalFrom inst cur acc xs = some acc' →
      evalFrom inst cur acc (xs ++ [c]) = extendStep inst (xs.getLastD cur) acc' c := by
  intro xs
  induction xs with
  | nil =>
    intro cur acc acc' c h
    have : acc = acc' := Option.some_inj.mp h
    subst this
    show evalFrom inst cur acc [c] = extendStep inst cur acc c
    unfold evalFrom
    cases hs : extendStep inst cur acc c with
    | none => rfl
    | some a => rfl
  | cons y ys ih =>
    intro cur acc acc' c h
    unfold evalFrom at h
    cases hs : extendStep inst cur acc y with
    | none =>
      rw [hs] at h
      exact Option.noConfusion h
    | some a =>
      rw [hs] at h
      dsimp only at h
      show evalFrom inst cur acc (y :: (ys ++ [c])) = _
      unfold evalFrom
      rw [hs]
      dsimp only
      rw [ih y a acc' c h]
      rw [List.getLastD_cons]

/-- Field characterisation of a successful `ESPPRC.extended_label`. -/
theorem extendCore_spec (inst : Inst) (fl : PLabel) (fi toc : ℕ) (newl : PLabel)
    (h : extendCore inst fl fi toc = some newl) :
    extendStep inst fl.customer (fl.cost, fl.load, fl.time) toc =
      some (newl.cost, newl.load, newl.time) ∧
    newl.customer = toc ∧ newl.prev = some fi ∧ newl.isDom = false ∧
    newl.unreachable =
      (if toc = 0 then {toc} ∪ allCustomers inst else {toc} ∪ fl.unreachable) := by
  unfold extendCore at h
  cases hs : extendStep inst fl.customer (fl.cost, fl.load, fl.time) toc with
  | none => rw [hs] at h; exact Option.noConfusion h
  | some acc =>
    rw [hs] at h
    simp only [Option.map_some, Option.map_some', Option.some_inj] at h
    by_cases h0 : toc = 0
    · rw [if_pos h0] at h
      subst h
      exact ⟨rfl, rfl, rfl, rfl, by rw [if_pos h0]; rfl⟩
    · rw [if_neg h0] at h
      subst h
      exact ⟨rfl, rfl, rfl, rfl, by rw [if_neg h0]; rfl⟩

/-- A member of a list is in its `dropLast` or is its last element. -/
theorem mem_dropLast_or_getLast {α : Type} :
    ∀ (l : List α) (x : α), x ∈ l → x ∈ l.dropLast ∨ l.getLast? = some x := by
  intro l
  induction l with
  | nil => intro x hx; exact absurd hx (List.not_mem_nil x)
  | cons a t ih =>
    intro x hx
    cases t with
    | nil =>
      rcases List.mem_singleton.mp hx with rfl
      exact Or.inr rfl
    | cons b t' =>
      rcases List.mem_cons.mp hx with rfl | hx'
      · exact Or.inl (List.mem_cons_self x _)
      · rcases ih x hx' with h | h
        · refine Or.inl ?_
          rw [List.dropLast_cons₂]
          exact List.mem_cons_of_mem a h
        · refine Or.inr ?_
          rw [List.getLast?_cons_cons]
          exact h

/-- The minimum of a list bounds each member from below. -/
theorem listMin_le (xs : List ℚ) (x : ℚ) (hx : x ∈ xs) :
    ∃ m, listMin xs = some m ∧ m ≤ x := by
  induction xs with
  | nil => exact absurd hx (List.not_mem_nil x)
  | cons c rest ih =>
    rcases List.mem_cons.mp hx with rfl | hx'
    · cases hrest : listMin rest with
      | none => exact ⟨x, by simp only [listMin, hrest], le_refl x⟩
      | some m => exact ⟨min x m, by simp only [listMin, hrest], min_le_left x m⟩
    · obtain ⟨m, hm, hmx⟩ := ih hx'
      exact ⟨min c m, by simp only [listMin, hm], le_trans (min_le_right c m) hmx⟩

/-- Python's `min` returns an actual pool entry. -/
theorem pyMinCost_mem (arena : List PLabel) :
    ∀ (pool : List ℕ) (acc : Option (ℕ × PLabel)),
      (∀ p : ℕ × PLabel, acc = some p → arena[p.1]? = some p.2) →
      ∀ p : ℕ × PLabel, pool.foldl (pyMinStep arena) acc = some p →
        arena[p.1]? = some p.2 := by
  intro pool
  induction pool with
  | nil =>
    intro acc hacc p hp
    rw [List.foldl_nil] at hp
    exact hacc p hp
  | cons j rest ih =>
    intro acc hacc p hp
    rw [List.foldl_cons] at hp
    refine ih (pyMinStep arena acc j) ?_ p hp
    intro q hq
    unfold pyMinStep at hq
    cases hj : arena[j]? with
    | none =>
      rw [hj] at hq
      exact hacc q hq
    | some l =>
      simp only [hj] at hq
      cases hacc2 : acc with
      | none =>
        simp only [hacc2] at hq
        obtain rfl := Option.some_inj.mp hq
        exact hj
      | some jb =>
        simp only [hacc2] at hq
        by_cases hlt : l.cost < jb.2.cost
        · simp only [if_pos hlt] at hq
          obtain rfl := Option.some_inj.mp hq
          exact hj
        · simp only [if_neg hlt] at hq
          exact hacc q (hacc2.trans hq)

/-! ### Invariant transport lemmas -/

/-- Transport a per-label invariant to an arena with the same path and a label
with the same data and at least as large an `unreachable_cs`. -/
theorem goodLabelAt_transport (inst : Inst) (a b : List PLabel) (i : ℕ)
    (l l' : PLabel) (hpath : pathOf b i = pathOf a i)
    (hcus : l'.customer = l.customer) (hprev : l'.prev = l.prev)
    (hcost : l'.cost = l.cost) (hload : l'.load = l.load)
    (htime : l'.time = l.time) (hunr : l.unreachable ⊆ l'.unreachable)
    (hg : GoodLabelAt inst a i l) : GoodLabelAt inst b i l' := by
  obtain ⟨tail, hpt, hnd, hd0, hsub, hev, hlen2⟩ := hg.shape
  refine ⟨?_, ⟨tail, ?_, hnd, hd0, ?_, ?_, ?_⟩, ?_⟩
  · intro p hp
    rw [hprev] at hp
    exact hg.prev_lt p hp
  · rw [hpath]
    exact hpt
  · exact fun x hx => hunr (hsub x hx)
  · rw [hcost, hload, htime]
    exact hev
  · intro h0 hpn
    exact hlen2 (hcus ▸ h0) (hprev ▸ hpn)
  · intro h0 hpn c hc
    exact hunr (hg.blocked (hcus ▸ h0) (hprev ▸ hpn) c hc)

/-- Overwriting an entry with one of the same customer and predecessor keeps
the arena's shape. -/
theorem sameShape_set (arena : List PLabel) (i : ℕ) (l l' : PLabel)
    (hget : arena[i]? = some l) (hcus : l'.customer = l.customer)
    (hprev : l'.prev = l.prev) : SameShape arena (arena.set i l') := by
  refine ⟨(List.length_set arena i l').symm, ?_⟩
  intro j
  by_cases hij : i = j
  · subst hij
    have hlen : i < arena.length := (List.getElem?_eq_some.mp hget).1
    rw [List.getElem?_set_self hlen, hget]
    simp [hcus, hprev]
  · rw [List.getElem?_set_ne hij]

/-- Overwriting an entry with a label of the same data and a larger
`unreachable_cs` preserves the arena invariant. -/
theorem arenaInv_set (inst : Inst) (arena : List PLabel) (i : ℕ) (l l' : PLabel)
    (hget : arena[i]? = some l) (hcus : l'.customer = l.customer)
    (hprev : l'.prev = l.prev) (hcost : l'.cost = l.cost)
    (hload : l'.load = l.load) (htime : l'.time = l.time)
    (hunr : l.unreachable ⊆ l'.unreachable) (hinv : ArenaInv inst arena) :
    ArenaInv inst (arena.set i l') := by
  have hss := sameShape_set arena i l l' hget hcus hprev
  have hpath := pathOf_sameShape arena (arena.set i l') hss
  have hlen : i < arena.length := (List.getElem?_eq_some.mp hget).1
  intro j m hm
  by_cases hij : i = j
  · subst hij
    rw [List.getElem?_set_self hlen] at hm
    obtain rfl : l' = m := Option.some_inj.mp hm
    exact goodLabelAt_transport inst arena (arena.set i l') i l l' (hpath i).symm
      hcus hprev hcost hload htime hunr (hinv i l hget)
  · rw [List.getElem?_set_ne hij] at hm
    exact goodLabelAt_transport inst arena (arena.set i l') j m m (hpath j).symm
      rfl rfl rfl rfl rfl (Finset.Subset.refl _) (hinv j m hm)

/-- Overwriting an entry with one of the same customer and predecessor
preserves the pools invariant. -/
theorem poolsInv_set (arena : List PLabel) (pools : List (List ℕ)) (i : ℕ)
    (l l' : PLabel) (hget : arena[i]? = some l)
    (hcus : l'.customer = l.customer) (hprev : l'.prev = l.prev)
    (hpi : PoolsInv arena pools) : PoolsInv (arena.set i l') pools := by
  intro c pool hpool j hj
  obtain ⟨m, hm, hmc, hmp⟩ := hpi c pool hpool j hj
  by_cases hij : i = j
  · subst hij
    have hlen : i < arena.length := (List.getElem?_eq_some.mp hget).1
    obtain rfl : l = m := Option.some_inj.mp (hget.symm.trans hm)
    exact ⟨l', List.getElem?_set_self hlen, hcus.trans hmc, by rw [hprev]; exact hmp⟩
  · exact ⟨m, by rw [List.getElem?_set_ne hij]; exact hm, hmc, hmp⟩

/-- `update_unreachable_from_prev` preserves both invariants. -/
theorem updateFromPrev_inv (inst : Inst) (arena : List PLabel)
    (pools : List (List ℕ)) (i : ℕ) (h1 : ArenaInv inst arena)
    (h2 : PoolsInv arena pools) :
    ArenaInv inst (updateFromPrev arena i) ∧
    PoolsInv (updateFromPrev arena i) pools := by
  unfold updateFromPrev
  cases hget : arena[i]? with
  | none => exact ⟨h1, h2⟩
  | some l =>
    dsimp only
    cases hprev : l.prev with
    | none => exact ⟨h1, h2⟩
    | some p =>
      dsimp only
      cases hp : arena[p]? with
      | none => exact ⟨h1, h2⟩
      | some pl =>
        dsimp only
        constructor
        · exact arenaInv_set inst arena i l _ hget rfl hprev.symm rfl rfl rfl
            Finset.subset_union_left h1
        · exact poolsInv_set arena pools i l _ hget rfl hprev.symm h2

/-- `FlagOnly` arenas have the same shape. -/
theorem sameShape_of_flagOnly (a b : List PLabel) (h : FlagOnly a b) :
    SameShape a b := by
  refine ⟨h.1, ?_⟩
  intro j
  rcases h.2 j with hj | ⟨l, hal, hbl⟩
  · rw [hj]
  · rw [hal, hbl]
    rfl

/-- Setting a flag preserves `FlagOnly`. -/
theorem flagOnly_set (a b : List PLabel) (hfo : FlagOnly a b) (j : ℕ)
    (l : PLabel) (hj : b[j]? = some l) :
    FlagOnly a (b.set j { l with isDom := true }) := by
  have hjlen : j < b.length := (List.getElem?_eq_some.mp hj).1
  refine ⟨by rw [List.length_set]; exact hfo.1, ?_⟩
  intro k
  by_cases hkj : j = k
  · subst hkj
    rcases hfo.2 j with hb | ⟨m, ham, hbm⟩
    · refine Or.inr ⟨l, by rw [← hb]; exact hj, ?_⟩
      rw [List.getElem?_set_self hjlen]
    · refine Or.inr ⟨m, ham, ?_⟩
      rw [List.getElem?_set_self hjlen]
      have : l = { m with isDom := true } := Option.some_inj.mp (hj.symm.trans hbm)
      rw [this]
  · rcases hfo.2 k with hb | ⟨m, ham, hbm⟩
    · refine Or.inl ?_
      rw [List.getElem?_set_ne hkj, hb]
    · refine Or.inr ⟨m, ham, ?_⟩
      rw [List.getElem?_set_ne hkj, hbm]

/-- The arena invariant only depends on the non-flag data. -/
theorem arenaInv_flagOnly (inst : Inst) (a b : List PLabel) (hfo : FlagOnly a b)
    (hinv : ArenaInv inst a) : ArenaInv inst b := by
  have hpath := pathOf_sameShape a b (sameShape_of_flagOnly a b hfo)
  intro j m hm
  rcases hfo.2 j with hb | ⟨l, hal, hbl⟩
  · rw [hb] at hm
    exact goodLabelAt_transport inst a b j m m (hpath j).symm rfl rfl rfl rfl rfl
      (Finset.Subset.refl _) (hinv j m hm)
  · have : m = { l with isDom := true } := Option.some_inj.mp (hm.symm.trans hbl)
    subst this
    exact goodLabelAt_transport inst a b j l _ (hpath j).symm rfl rfl rfl rfl rfl
      (Finset.Subset.refl _) (hinv j l hal)

/-- The pools invariant only depends on the non-flag data. -/
theorem poolsInv_flagOnly (a b : List PLabel) (pools : List (List ℕ))
    (hfo : FlagOnly a b) (hpi : PoolsInv a pools) : PoolsInv b pools := by
  intro c pool hpool j hj
  obtain ⟨m, hm, hmc, hmp⟩ := hpi c pool hpool j hj
  rcases hfo.2 j with hb | ⟨l, hal, hbl⟩
  · exact ⟨m, by rw [hb]; exact hm, hmc, hmp⟩
  · obtain rfl : m = l := Option.some_inj.mp (hm.symm.trans hal)
    exact ⟨{ m with isDom := true }, hbl, hmc, hmp⟩

/-- `filter_dominated` only flips flags, and keeps only pool members. -/
theorem filterDominated_spec (newl : PLabel) :
    ∀ (pool : List ℕ) (acc : List ℕ × List PLabel) (arena : List PLabel),
      FlagOnly arena acc.2 →
      FlagOnly arena (pool.foldl (filterStep newl) acc).2 ∧
      (∀ j ∈ (pool.foldl (filterStep newl) acc).1, j ∈ acc.1 ∨ j ∈ pool) := by
  intro pool
  induction pool with
  | nil =>
    intro acc arena hfo
    exact ⟨hfo, fun j hj => Or.inl hj⟩
  | cons p rest ih =>
    intro acc arena hfo
    rw [List.foldl_cons]
    have hstep : FlagOnly arena (filterStep newl acc p).2 ∧
        ∀ j ∈ (filterStep newl acc p).1, j ∈ acc.1 ∨ j = p := by
      unfold filterStep
      cases hg : acc.2[p]? with
      | none =>
        exact ⟨hfo, fun j hj => by
          rcases List.mem_append.mp hj with hj | hj
          · exact Or.inl hj
          · exact Or.inr (List.mem_singleton.mp hj)⟩
      | some l =>
        dsimp only
        by_cases hd : dispatchDominates newl l = true
        · rw [if_pos hd]
          exact ⟨flagOnly_set arena acc.2 hfo p l hg, fun j hj => Or.inl hj⟩
        · rw [if_neg hd]
          exact ⟨hfo, fun j hj => by
            rcases List.mem_append.mp hj with hj | hj
            · exact Or.inl hj
            · exact Or.inr (List.mem_singleton.mp hj)⟩
    obtain ⟨hres, hmem⟩ := ih (filterStep newl acc p) arena hstep.1
    refine ⟨hres, ?_⟩
    intro j hj
    rcases hmem j hj with hj' | hj'
    · rcases hstep.2 j hj' with h | h
      · exact Or.inl h
      · exact Or.inr (h ▸ List.mem_cons_self p rest)
    · exact Or.inr (List.mem_cons_of_mem p hj')

/-- The `getLastD` of a tail, read off the `getLast?` of the cons. -/
theorem cons_getLast?_getLastD (a x : ℕ) :
    ∀ (l : List ℕ), (a :: l).getLast? = some x → l.getLastD a = x := by
  intro l
  induction l generalizing a with
  | nil =>
    intro h
    rw [List.getLast?_singleton] at h
    exact Option.some_inj.mp h
  | cons b t ih =>
    intro h
    rw [List.getLast?_cons_cons] at h
    rw [List.getLastD_cons]
    exact ih b h

/-- Appending to the arena preserves the pools invariant. -/
theorem poolsInv_append (arena : List PLabel) (pools : List (List ℕ))
    (x : PLabel) (h : PoolsInv arena pools) : PoolsInv (arena ++ [x]) pools := by
  intro c pool hpool j hj
  obtain ⟨m, hm, hmc, hmp⟩ := h c pool hpool j hj
  exact ⟨m, by
    rw [List.getElem?_append_left (List.getElem?_eq_some.mp hm).1]
    exact hm, hmc, hmp⟩

/-- Any property of pool indices (kept by the accumulator) holds of the index
`min` returns. -/
theorem pyMinCost_prop (arena : List PLabel) (C : ℕ → Prop) :
    ∀ (pool : List ℕ) (acc : Option (ℕ × PLabel)),
      (∀ p : ℕ × PLabel, acc = some p → C p.1) → (∀ j ∈ pool, C j) →
      ∀ p : ℕ × PLabel, pool.foldl (pyMinStep arena) acc = some p → C p.1 := by
  intro pool
  induction pool with
  | nil =>
    intro acc hacc _ p hp
    exact hacc p hp
  | cons j rest ih =>
    intro acc hacc hpool p hp
    rw [List.foldl_cons] at hp
    refine ih (pyMinStep arena acc j) ?_
      (fun k hk => hpool k (List.mem_cons_of_mem j hk)) p hp
    intro q hq
    unfold pyMinStep at hq
    cases hg : arena[j]? with
    | none =>
      rw [hg] at hq
      exact hacc q hq
    | some l =>
      rw [hg] at hq
      dsimp only at hq
      cases hacc' : acc with
      | none =>
        rw [hacc'] at hq
        dsimp only at hq
        obtain rfl : (j, l) = q := Option.some_inj.mp hq
        exact hpool j (List.mem_cons_self j rest)
      | some jb =>
        rw [hacc'] at hq
        dsimp only at hq
        by_cases hlt : l.cost < jb.2.cost
        · rw [if_pos hlt] at hq
          obtain rfl : (j, l) = q := Option.some_inj.mp hq
          exact hpool j (List.mem_cons_self j rest)
        · rw [if_neg hlt] at hq
          exact hacc q (hacc'.trans hq)

/-- Sufficient conditions for a cons route to pass the elementarity check. -/
theorem elementaryB_intro (tail : List ℕ) (h1 : tail.getLast? = some 0)
    (h2 : tail.dropLast.Nodup) (h3 : ∀ x ∈ tail.dropLast, x ≠ 0) :
    elementaryB (0 :: tail) = true := by
  unfold elementaryB
  dsimp only
  rw [h1]
  simp only [Bool.and_eq_true, decide_eq_true_eq, List.all_eq_true]
  exact ⟨⟨trivial, h2⟩, h3⟩

/-- Appending a fresh extension of a good label preserves the arena
invariant.  This is the heart of the amended C1: every retained label keeps an
elementary, resource-feasible path replaying to its resources. -/
theorem goodArena_extend (inst : Inst) (arena : List PLabel) (i : ℕ)
    (fl newl : PLabel) (toc : ℕ) (hinv : ArenaInv inst arena)
    (hget : arena[i]? = some fl) (hnr : toc ∉ fl.unreachable)
    (hnd : ¬(fl.customer = 0 ∧ toc = 0))
    (hext : extendCore inst fl i toc = some newl) :
    ArenaInv inst (arena ++ [newl]) := by
  obtain ⟨hstep, hcus, hprev, _, hunr⟩ := extendCore_spec inst fl i toc newl hext
  have hlen : i < arena.length := (List.getElem?_eq_some.mp hget).1
  have hgood := hinv i fl hget
  obtain ⟨tail, hpt, hnd', hd0, hsub, hev, hlen2⟩ := hgood.shape
  have htocn : toc < inst.n := extendStep_lt inst fl.customer _ toc _ hstep
  have hgl := pathOf_getLast arena i fl hget
  rw [hpt] at hgl
  have hgld : tail.getLastD 0 = fl.customer := cons_getLast?_getLastD 0 _ tail hgl
  -- the last element of `tail` is `fl.customer`, and it is nonzero unless the
  -- label is the initial depot label (whose `tail` is empty)
  have hlast_ne : ∀ x, tail.getLast? = some x → x ≠ 0 := by
    intro x hx hx0
    have hxc : x = fl.customer := by
      rw [List.getLastD_eq_getLast?, hx] at hgld
      exact hgld
    have hfc0 : fl.customer = 0 := by rw [← hxc, hx0]
    cases hpv : fl.prev with
    | none =>
      have := pathOf_root arena i fl hget hpv
      rw [hpt, hfc0] at this
      have htn : tail = [] := by injection this
      rw [htn] at hx
      exact Option.noConfusion hx
    | some p =>
      exact hnr (hgood.blocked hfc0 (by rw [hpv]; exact Option.noConfusion) toc htocn)
  have hpath_new : pathOf (arena ++ [newl]) arena.length = (0 :: tail) ++ [toc] := by
    rw [pathOf_step (arena ++ [newl]) arena.length newl i
        (List.getElem?_concat_length arena newl) hprev hlen,
      pathOf_append arena newl i hlen, hpt, hcus]
  intro j m hm
  by_cases hj : j = arena.length
  · subst hj
    rw [List.getElem?_concat_length] at hm
    obtain rfl : newl = m := Option.some_inj.mp hm
    refine ⟨?_, ⟨tail ++ [toc], ?_, ?_, ?_, ?_, ?_, ?_⟩, ?_⟩
    · intro p hp
      rw [hprev] at hp
      obtain rfl : i = p := Option.some_inj.mp hp
      exact hlen
    · rw [hpath_new]
      rfl
    · rw [List.nodup_append]
      refine ⟨hnd', List.nodup_singleton toc, ?_⟩
      intro a ha hb
      obtain rfl : a = toc := List.mem_singleton.mp hb
      exact hnr (hsub a ha)
    · rw [List.dropLast_concat]
      intro x hx
      rcases mem_dropLast_or_getLast tail x hx with h | h
      · exact hd0 x h
      · exact hlast_ne x h
    · intro x hx
      rw [hunr]
      rcases List.mem_append.mp hx with hx' | hx'
      · by_cases h0 : toc = 0
        · rw [if_pos h0]
          refine Finset.mem_union_right _ ?_
          unfold allCustomers
          exact Finset.mem_range.mpr (evalFrom_bounds inst tail 0 _ _ hev x hx')
        · rw [if_neg h0]
          exact Finset.mem_union_right _ (hsub x hx')
      · obtain rfl : x = toc := List.mem_singleton.mp hx'
        by_cases h0 : x = 0
        · rw [if_pos h0]
          exact Finset.mem_union_left _ (Finset.mem_singleton_self x)
        · rw [if_neg h0]
          exact Finset.mem_union_left _ (Finset.mem_singleton_self x)
    · rw [evalFrom_snoc inst tail 0 (0, 0, 0) _ toc hev, hgld]
      exact hstep
    · intro h0 _
      have h0' : toc = 0 := by rw [← hcus]; exact h0
      have hfc : fl.customer ≠ 0 := fun hc => hnd ⟨hc, h0'⟩
      have htne : tail ≠ [] := by
        intro htn
        rw [htn, List.getLast?_singleton] at hgl
        exact hfc (Option.some_inj.mp hgl).symm
      have : 1 ≤ tail.length := List.length_pos.mpr htne
      rw [List.length_append, List.length_singleton]
      omega
    · intro h0 _ c hc
      have h0' : toc = 0 := by rw [← hcus]; exact h0
      rw [hunr, if_pos h0']
      refine Finset.mem_union_right _ ?_
      unfold allCustomers
      exact Finset.mem_range.mpr hc
  · have hjlen : j < arena.length := by
      have := (List.getElem?_eq_some.mp hm).1
      rw [List.length_append, List.length_singleton] at this
      omega
    have hm' : arena[j]? = some m := by
      rw [← List.getElem?_append_left hjlen]
      exact hm
    exact goodLabelAt_transport inst arena (arena ++ [newl]) j m m
      (pathOf_append arena newl j hjlen) rfl rfl rfl rfl rfl
      (Finset.Subset.refl _) (hinv j m hm')

/-- The extension loop of the exact engine never raises and preserves the
state invariant. -/
theorem extLoop_exact_inv (inst : Inst) (crit : Finset ℕ) (i : ℕ) :
    ∀ (tocs : List ℕ) (st : EngState),
      ArenaInv inst st.arena → PoolsInv st.arena st.pools →
      ∃ st', extLoop .exact inst crit i tocs st = .ok st' ∧
        ArenaInv inst st'.arena ∧ PoolsInv st'.arena st'.pools := by
  intro tocs
  induction tocs with
  | nil =>
    intro st h1 h2
    exact ⟨st, rfl, h1, h2⟩
  | cons toc rest ih =>
    intro st h1 h2
    rw [extLoop]
    cases hget : st.arena[i]? with
    | none => exact ih st h1 h2
    | some fl =>
      dsimp only
      by_cases hskip : toc ∈ fl.unreachable ∨ (fl.customer = 0 ∧ toc = 0)
      · rw [if_pos hskip]
        exact ih st h1 h2
      · rw [if_neg hskip]
        have hnr : toc ∉ fl.unreachable := fun h => hskip (Or.inl h)
        have hnd0 : ¬(fl.customer = 0 ∧ toc = 0) := fun h => hskip (Or.inr h)
        dsimp only [extendVariant]
        cases hext : extendCore inst fl i toc with
        | none =>
          dsimp only
          exact ih _
            (arenaInv_set inst st.arena i fl _ hget rfl rfl rfl rfl rfl
              (Finset.subset_insert toc fl.unreachable) h1)
            (poolsInv_set st.arena st.pools i fl _ hget rfl rfl h2)
        | some newl =>
          dsimp only
          by_cases hdom :
              isDominatedB st.arena (st.pools.getD toc []) newl = true
          · rw [if_pos hdom]
            exact ih st h1 h2
          · rw [if_neg hdom]
            obtain ⟨_, hcusn, hprevn, _, _⟩ :=
              extendCore_spec inst fl i toc newl hext
            obtain ⟨hfo, hkeep⟩ := filterDominated_spec newl
              (st.pools.getD toc []) ([], st.arena) st.arena
              ⟨rfl, fun j => Or.inl rfl⟩
            have hkeep' : ∀ j ∈ (filterDominated st.arena
                (st.pools.getD toc []) newl).1, j ∈ st.pools.getD toc [] := by
              intro j hj
              rcases hkeep j hj with h | h
              · exact absurd h (List.not_mem_nil j)
              · exact h
            have hfo' : FlagOnly st.arena
                (filterDominated st.arena (st.pools.getD toc []) newl).2 := hfo
            have h1f : ArenaInv inst
                (filterDominated st.arena (st.pools.getD toc []) newl).2 :=
              arenaInv_flagOnly inst st.arena _ hfo' h1
            have harena : ArenaInv inst
                ((filterDominated st.arena (st.pools.getD toc []) newl).2 ++ [newl]) := by
              rcases hfo'.2 i with hb | ⟨l, hal, hbl⟩
              · exact goodArena_extend inst _ i fl newl toc h1f
                  (by rw [hb]; exact hget) hnr hnd0 hext
              · obtain rfl : fl = l := Option.some_inj.mp (hget.symm.trans hal)
                exact goodArena_extend inst _ i { fl with isDom := true } newl
                  toc h1f hbl hnr hnd0 hext
            have h2f : PoolsInv
                ((filterDominated st.arena (st.pools.getD toc []) newl).2 ++ [newl])
                st.pools :=
              poolsInv_append _ _ _ (poolsInv_flagOnly st.arena _ st.pools hfo' h2)
            have hpools : PoolsInv
                ((filterDominated st.arena (st.pools.getD toc []) newl).2 ++ [newl])
                (st.pools.set toc
                  ((filterDominated st.arena (st.pools.getD toc []) newl).1 ++
                    [(filterDominated st.arena (st.pools.getD toc []) newl).2.length])) := by
              intro c pool' hpool' j hj
              by_cases hct : c = toc
              · subst hct
                by_cases hlt : c < st.pools.length
                · rw [List.getElem?_set_self hlt] at hpool'
                  obtain rfl := Option.some_inj.mp hpool'.symm
                  rcases List.mem_append.mp hj with hjk | hjn
                  · have hjp : j ∈ st.pools.getD c [] := hkeep' j hjk
                    cases hp0 : st.pools[c]? with
                    | none =>
                      rw [List.getD_eq_getElem?_getD, hp0] at hjp
                      exact absurd hjp (List.not_mem_nil j)
                    | some p₀ =>
                      refine h2f c p₀ hp0 j ?_
                      rw [List.getD_eq_getElem?_getD, hp0] at hjp
                      exact hjp
                  · obtain rfl := List.mem_singleton.mp hjn
                    exact ⟨newl, List.getElem?_concat_length _ _, hcusn,
                      by rw [hprevn]; exact Option.noConfusion⟩
                · have hle : (st.pools.set c
                      ((filterDominated st.arena (st.pools.getD c []) newl).1 ++
                        [(filterDominated st.arena
                          (st.pools.getD c []) newl).2.length])).length ≤ c := by
                    rw [List.length_set]
                    omega
                  rw [List.getElem?_eq_none hle] at hpool'
                  exact Option.noConfusion hpool'
              · rw [List.getElem?_set_ne (fun h => hct h.symm)] at hpool'
                exact h2f c pool' hpool' j hj
            exact ih _ harena hpools

/-- One pop of the exact engine never raises and preserves the state
invariant. -/
theorem popStep_exact_inv (inst : Inst) (crit : Finset ℕ) (st : EngState)
    (h1 : ArenaInv inst st.arena) (h2 : PoolsInv st.arena st.pools) :
    ∃ r, popStep .exact inst crit st = .ok r ∧
      ∀ st', r = some st' →
        ArenaInv inst st'.arena ∧ PoolsInv st'.arena st'.pools := by
  unfold popStep
  cases hp : heappop (ltIdx st.arena) st.heap with
  | none => exact ⟨none, rfl, fun st' h => Option.noConfusion h⟩
  | some ih =>
    obtain ⟨i, heap'⟩ := ih
    dsimp only
    cases hg : st.arena[i]? with
    | none =>
      refine ⟨some _, rfl, fun st' h => ?_⟩
      obtain rfl := Option.some_inj.mp h
      exact ⟨h1, h2⟩
    | some fl =>
      dsimp only
      by_cases hd : fl.isDom = true
      · rw [if_pos hd]
        refine ⟨some _, rfl, fun st' h => ?_⟩
        obtain rfl := Option.some_inj.mp h
        exact ⟨h1, h2⟩
      · rw [if_neg hd]
        obtain ⟨h1', h2'⟩ := updateFromPrev_inv inst st.arena st.pools i h1 h2
        obtain ⟨st'', hrun, hA, hP⟩ :=
          extLoop_exact_inv inst crit i (List.range inst.n)
            { st with arena := updateFromPrev st.arena i, heap := heap' } h1' h2'
        rw [hrun]
        refine ⟨some st'', rfl, fun st' h => ?_⟩
        obtain rfl := Option.some_inj.mp h
        exact ⟨hA, hP⟩

/-- The labeling loop of the exact engine preserves the state invariant up to
its natural exit. -/
theorem runLoop_exact_inv (inst : Inst) (crit : Finset ℕ) :
    ∀ (fuel : ℕ) (st : EngState),
      ArenaInv inst st.arena → PoolsInv st.arena st.pools →
      ∀ st', runLoop .exact inst crit fuel st = .ok (some st') →
        ArenaInv inst st'.arena ∧ PoolsInv st'.arena st'.pools := by
  intro fuel
  induction fuel with
  | zero =>
    intro st _ _ st' h
    exact absurd (Option.noConfusion (Except.ok.inj h)) id
  | succ fuel ih =>
    intro st h1 h2 st' h
    rw [runLoop] at h
    obtain ⟨r, hps, hr⟩ := popStep_exact_inv inst crit st h1 h2
    rw [hps] at h
    cases r with
    | none =>
      dsimp only at h
      obtain rfl := Option.some_inj.mp (Except.ok.inj h)
      exact ⟨h1, h2⟩
    | some st1 =>
      dsimp only at h
      obtain ⟨hA, hP⟩ := hr st1 rfl
      exact ih st1 hA hP st' h

/-- The initial state of the engine satisfies the state invariant. -/
theorem initState_inv (inst : Inst) :
    ArenaInv inst (initState inst).arena ∧
    PoolsInv (initState inst).arena (initState inst).pools := by
  constructor
  · intro i l hl
    match i, hl with
    | 0, hl =>
      obtain rfl : depotLabel = l := Option.some_inj.mp hl
      refine ⟨?_, ⟨[], ?_, List.nodup_nil, ?_, ?_, rfl, ?_⟩, ?_⟩
      · intro p hp
        exact absurd hp (by rw [show depotLabel.prev = none from rfl]; exact
          Option.noConfusion)
      · exact pathOf_root _ 0 depotLabel hl rfl
      · intro x hx
        exact absurd hx (List.not_mem_nil x)
      · intro x hx
        exact absurd hx (List.not_mem_nil x)
      · intro _ hpn
        exact absurd rfl hpn
      · intro _ hpn
        exact absurd rfl hpn
  · intro c pool hpool j hj
    have : (List.replicate inst.n ([] : List ℕ))[c]? = some pool := hpool
    rw [List.getElem?_replicate] at this
    by_cases hc : c < inst.n
    · rw [if_pos hc] at this
      obtain rfl : ([] : List ℕ) = pool := Option.some_inj.mp this
      exact absurd hj (List.not_mem_nil j)
    · rw [if_neg hc] at this
      exact Option.noConfusion this

/-- C1 (amended): whenever the exact engine's `solve` returns a `(path, cost)`
pair, the path is elementary (depot at both ends, no repeated customer), it is
capacity- and time-window-feasible with replayed reduced cost exactly `cost`,
and `cost` is bounded below by the minimum reduced cost over all feasible
elementary depot-to-depot routes.  The original claim — that `cost` *equals*
that minimum — is refuted by `espprc_returns_suboptimal_cost`. -/
theorem espprc_solve_elementary_lower_bound (inst : Inst) (fuel : ℕ)
    (p : List ℕ) (c : ℚ) (h : espprcSolve inst fuel = .ok (p, c)) :
    elementaryB p = true ∧
    (∃ lt' : ℚ × ℚ, evalRoute inst p = some (c, lt'.1, lt'.2)) ∧
    (∃ m, minFeasCost inst = some m ∧ m ≤ c) := by
  unfold espprcSolve engineSolve at h
  by_cases hn : inst.n = 0
  · rw [if_pos hn] at h
    exact absurd h (fun hc => Except.noConfusion hc)
  rw [if_neg hn] at h
  cases hrun : runLoop .exact inst ∅ fuel (initState inst) with
  | error e =>
    rw [hrun] at h
    exact absurd h (fun hc => Except.noConfusion hc)
  | ok o =>
    rw [hrun] at h
    cases o with
    | none =>
      dsimp only at h
      exact absurd h (fun hc => Except.noConfusion hc)
    | some st =>
      dsimp only at h
      cases hmin : pyMinCost st.arena (st.pools.getD 0 []) with
      | none =>
        rw [hmin] at h
        exact absurd h (fun hc => Except.noConfusion hc)
      | some jl =>
        rw [hmin] at h
        dsimp only at h
        have hpair := Except.ok.inj h
        have hp : pathOf st.arena jl.1 = p := congrArg Prod.fst hpair
        have hc : jl.2.cost = c := congrArg Prod.snd hpair
        obtain ⟨hA, hP⟩ := runLoop_exact_inv inst ∅ fuel (initState inst)
          (initState_inv inst).1 (initState_inv inst).2 st hrun
        have hjarena : st.arena[jl.1]? = some jl.2 :=
          pyMinCost_mem st.arena (st.pools.getD 0 []) none
            (fun q hq => Option.noConfusion hq) jl hmin
        cases hp0 : st.pools[0]? with
        | none =>
          have hgd : st.pools.getD 0 [] = [] := by
            rw [List.getD_eq_getElem?_getD, hp0]
            rfl
          rw [hgd] at hmin
          simp only [pyMinCost, List.foldl_nil] at hmin
          exact Option.noConfusion hmin
        | some pool₀ =>
          have hjl_mem : jl.1 ∈ pool₀ := by
            refine pyMinCost_prop st.arena (· ∈ pool₀) (st.pools.getD 0 []) none
              (fun q hq => Option.noConfusion hq) ?_ jl hmin
            intro k hk
            rw [List.getD_eq_getElem?_getD, hp0] at hk
            exact hk
          obtain ⟨l0, hl0, hl0c, hl0p⟩ := hP 0 pool₀ hp0 jl.1 hjl_mem
          obtain rfl : jl.2 = l0 := Option.some_inj.mp (hjarena.symm.trans hl0)
          have hgood := hA jl.1 jl.2 hjarena
          obtain ⟨tail, hpt, hnd, hd0, hsub, hev, hlen2⟩ := hgood.shape
          have h2tail : 2 ≤ tail.length := hlen2 hl0c hl0p
          rw [hpt] at hp
          subst hp
          have hgl := pathOf_getLast st.arena jl.1 jl.2 hjarena
          rw [hpt, hl0c] at hgl
          have htne : tail ≠ [] := by
            intro htn
            rw [htn] at h2tail
            simp at h2tail
          have hts : tail.getLast? = some 0 := by
            cases hte : tail.getLast? with
            | none => exact absurd (List.getLast?_eq_none_iff.mp hte) htne
            | some y =>
              have hgld := cons_getLast?_getLastD 0 0 tail hgl
              rw [List.getLastD_eq_getLast?, hte] at hgld
              have hy : y = 0 := hgld
              rw [hy]
          have hmids_nd : tail.dropLast.Nodup :=
            List.Nodup.sublist (List.dropLast_sublist tail) hnd
          have he : elementaryB (0 :: tail) = true :=
            elementaryB_intro tail hts hmids_nd hd0
          have hroute : evalRoute inst (0 :: tail) =
              some (c, jl.2.load, jl.2.time) := by
            show (if (0 : ℕ) = 0 then evalFrom inst 0 (0, 0, 0) tail else none) = _
            rw [if_pos rfl, hev, hc]
          have hmids_sub : tail.dropLast ⊆
              (List.range inst.n).filter (fun x => x ≠ 0) := by
            intro x hx
            have hxt : x ∈ tail := (List.dropLast_sublist tail).subset hx
            refine List.mem_filter.mpr ⟨List.mem_range.mpr
              (evalFrom_bounds inst tail 0 _ _ hev x hxt), ?_⟩
            exact decide_eq_true (hd0 x hx)
          obtain ⟨s, hsp, hss⟩ := List.Nodup.subperm hmids_nd hmids_sub
          have hmids_ne : tail.dropLast ≠ [] := by
            intro hdn
            have hld := List.length_dropLast tail
            rw [hdn] at hld
            simp only [List.length_nil] at hld
            omega
          have hmids_mem : tail.dropLast ∈ allMids inst := by
            unfold allMids
            refine List.mem_filter.mpr ⟨?_, decide_eq_true hmids_ne⟩
            refine List.mem_flatMap.mpr ⟨s, List.mem_sublists.mpr hss, ?_⟩
            exact List.mem_permutations'.mpr hsp.symm
          have htail_eq : tail.dropLast ++ [0] = tail := by
            have hdg := List.dropLast_append_getLast htne
            have hgl0 : tail.getLast htne = 0 := by
              rw [List.getLast?_eq_getLast tail htne] at hts
              exact Option.some_inj.mp hts
            rw [hgl0] at hdg
            exact hdg
          have hrc : routeCost inst (0 :: (tail.dropLast ++ [0])) = some c := by
            rw [htail_eq]
            unfold routeCost
            rw [hroute]
            rfl
          have hcmem : c ∈ (allMids inst).filterMap
              (fun m => routeCost inst (0 :: (m ++ [0]))) :=
            List.mem_filterMap.mpr ⟨tail.dropLast, hmids_mem, hrc⟩
          obtain ⟨m, hm1, hm2⟩ := listMin_le _ c hcmem
          exact ⟨he, ⟨(jl.2.load, jl.2.time), hroute⟩,
            ⟨m, by unfold minFeasCost; exact hm1, hm2⟩⟩

/-- Witness for C1's amended theorem: on `wellInst` the solver returns
`([0, 1, 0], 2)`, an elementary feasible route whose cost attains the
minimum. -/
theorem espprc_solve_elementary_lower_bound_witness :
    elementaryB [0, 1, 0] = true ∧
    (∃ lt' : ℚ × ℚ, evalRoute wellInst [0, 1, 0] = some (2, lt'.1, lt'.2)) ∧
    (∃ m, minFeasCost wellInst = some m ∧ m ≤ 2) :=
  espprc_solve_elementary_lower_bound wellInst 50 [0, 1, 0] 2 (by decide)

/-- C1 counterexample: on `optInst` (four customers, symmetric times with a
single long arc `1 ↔ 2`, zero costs, duals `0/1000/1000/1000`) the exact
engine returns the route `[0, 3, 1, 0]` of reduced cost `-2000`, strictly
above the minimum `-3000` attained by a feasible elementary route; the
inherited `unreachable_cs` memoization wrongly prunes the optimum. -/
theorem espprc_returns_suboptimal_cost :
    espprcSolve optInst 50 = .ok ([0, 3, 1, 0], -2000) ∧
    minFeasCost optInst = some (-3000) ∧ ((-3000 : ℚ) < -2000) := by
  refine ⟨by decide, by decide, by decide⟩

end VRPTWProof
